import Mathlib

/-!
# Verification of the `scrapebing` harvesting core

A shallow embedding, in Lean 4, of the search-harvesting and page-crawling
pipeline implemented in `scraper.py` (functions `normalize_url`,
`generate_unique_id`, `save_to_csv`, `is_relevant_result`, `scrape_query`,
`scrape_page_and_save`, `scrape_multiple_queries`).

## Modelling conventions

* Python strings are sequences of Unicode code points; they are modelled as
  `List Char` (abbreviated `PyStr`).  Python's `str.lower` is modelled by the
  ASCII case mapping (the only strings the code lowercases are URL schemes,
  which are ASCII by construction, and host names).
* `normalize_url` calls into `urllib.parse`.  Those library functions
  (`urlparse`/`urlsplit`, `parse_qs`, `urlencode`, `quote_plus`, `unquote`,
  `urlunparse`) are modelled faithfully from the CPython implementation
  (reference: CPython 3.11, `Lib/urllib/parse.py`), including the WHATWG
  left-strip of control/space characters, the removal of tab/CR/LF, the
  `uses_netloc`/`uses_params` scheme tables, and the `ValueError` raised on a
  netloc with unbalanced brackets (modelled as `Except.error ()`).  Two
  checks that touch only exotic inputs are simplified and documented at the
  definition site: the NFKC check for non-ASCII netlocs and the bracketed
  IP-address validation added in CPython 3.11 are modelled as accepting.
* `generate_unique_id` is `hashlib.md5(url).hexdigest()`: a deterministic
  digest of the canonical URL.  The digest itself is an external library
  call; it is modelled as an explicit function parameter `uid : PyStr → PyStr`
  threaded through the scraper definitions, so that theorems can state
  exactly which of its properties (determinism, injectivity) they use.
* Network fetches, the BeautifulSoup HTML parser and the crawler are
  external collaborators: a listing fetch is an abstract environment value
  (`ListingResponse`), giving either the parsed `li.b_algo` entries
  (title/url/snippet, as extracted on lines 84-90 of `scraper.py`) or the
  exception case; a page-content fetch is an abstract per-attempt outcome
  (`AttemptOutcome`), giving either an exception or the response markdown
  together with the text that `BeautifulSoup.get_text` extracts from it.
* The SQLAlchemy session, the CSV writer and the content files are sinks;
  they are modelled by the record lists handed to them (a `RunTrace`).
-/

/-- A Python string: a finite sequence of Unicode code points. -/
abbrev PyStr := List Char

/-- Convert a Lean string literal to the model's string type. -/
def pys (s : String) : PyStr := s.toList

/-- ASCII lower-casing of one character (model of `str.lower` per char). -/
def pyLowerChar (c : Char) : Char :=
  if 'A' ≤ c ∧ c ≤ 'Z' then Char.ofNat (c.toNat + 32) else c

/-- Model of Python `str.lower` (ASCII case mapping). -/
def pyLower (s : PyStr) : PyStr := s.map pyLowerChar

/-- Characters stripped from the left of a URL by `urlsplit`
(`_WHATWG_C0_CONTROL_OR_SPACE`: C0 controls and space). -/
def isC0ControlOrSpace (c : Char) : Bool := c.toNat ≤ 0x20

/-- The unsafe bytes removed from URLs by `urlsplit`
(`_UNSAFE_URL_BYTES_TO_REMOVE`: tab, CR, LF). -/
def isUnsafeUrlByte (c : Char) : Bool := c = '\t' ∨ c = '\r' ∨ c = '\n'

/-- `url.lstrip(_WHATWG_C0_CONTROL_OR_SPACE)`. -/
def lstripC0 (s : PyStr) : PyStr := s.dropWhile isC0ControlOrSpace

/-- `url.replace(b, "")` for each of tab, CR, LF. -/
def removeUnsafe (s : PyStr) : PyStr := s.filter (fun c => ¬ isUnsafeUrlByte c)

/-- ASCII alphabetic test (`url[0].isascii() and url[0].isalpha()`). -/
def isAsciiAlpha (c : Char) : Bool :=
  ('A' ≤ c ∧ c ≤ 'Z') ∨ ('a' ≤ c ∧ c ≤ 'z')

/-- ASCII digit test. -/
def isAsciiDigit (c : Char) : Bool := '0' ≤ c ∧ c ≤ '9'

/-- Membership in `scheme_chars` (letters, digits, `+`, `-`, `.`). -/
def isSchemeChar (c : Char) : Bool :=
  isAsciiAlpha c ∨ isAsciiDigit c ∨ c = '+' ∨ c = '-' ∨ c = '.'

/-- Split a list at the first occurrence of `c`: `some (before, after)` when
`c` occurs, `none` otherwise.  Models Python `s.split(c, 1)` combined with
the `c in s` membership test. -/
def splitOnceChar (c : Char) (s : PyStr) : Option (PyStr × PyStr) :=
  match s.dropWhile (· ≠ c) with
  | [] => none
  | _ :: rest => some (s.takeWhile (· ≠ c), rest)

/-- Python `s.rstrip('/')`: drop all trailing slashes. -/
def rstripSlash (s : PyStr) : PyStr := (s.reverse.dropWhile (· = '/')).reverse

/-- Python `s.split(sep)` for a one-character separator (never returns `[]`;
an empty input yields `[[]]`). -/
def splitAllChar (c : Char) : PyStr → List PyStr
  | [] => [[]]
  | x :: xs =>
    let r := splitAllChar c xs
    if x = c then [] :: r
    else
      match r with
      | [] => [[x]]
      | y :: ys => (x :: y) :: ys

/-- Python `', '.join`-style join with a separator list. -/
def joinSep (sep : PyStr) : List PyStr → PyStr
  | [] => []
  | [x] => x
  | x :: y :: ys => x ++ sep ++ joinSep sep (y :: ys)

/-! ## Percent-encoding (`urllib.parse.quote_plus`, `unquote`)

`quote` encodes the UTF-8 bytes of the string, keeping bytes in
`_ALWAYS_SAFE` (ASCII letters, digits, `_.-~`) and in the caller's `safe`
set, and writing every other byte as `%XX` with upper-case hex digits. -/

/-- UTF-8 encoding of one code point as a byte list. -/
def utf8Bytes (c : Char) : List Nat :=
  let n := c.toNat
  if n < 0x80 then [n]
  else if n < 0x800 then [0xC0 + n / 0x40, 0x80 + n % 0x40]
  else if n < 0x10000 then
    [0xE0 + n / 0x1000, 0x80 + n / 0x40 % 0x40, 0x80 + n % 0x40]
  else
    [0xF0 + n / 0x40000, 0x80 + n / 0x1000 % 0x40, 0x80 + n / 0x40 % 0x40,
     0x80 + n % 0x40]

/-- Upper-case hex digit for a value below 16. -/
def hexDigitUpper (n : Nat) : Char :=
  if n < 10 then Char.ofNat ('0'.toNat + n)
  else Char.ofNat ('A'.toNat + (n - 10))

/-- A byte is in `_ALWAYS_SAFE` (ASCII alphanumerics and `_.-~`). -/
def isAlwaysSafeByte (b : Nat) : Bool :=
  b < 0x80 ∧
    (isAsciiAlpha (Char.ofNat b) ∨ isAsciiDigit (Char.ofNat b) ∨
     Char.ofNat b = '_' ∨ Char.ofNat b = '.' ∨ Char.ofNat b = '-' ∨
     Char.ofNat b = '~')

/-- `quote(string, safe)`: UTF-8 encode, then percent-encode every byte not
in `_ALWAYS_SAFE ∪ safe` as upper-case `%XX`. -/
def pyQuote (safe : List Char) (s : PyStr) : PyStr :=
  (s.flatMap utf8Bytes).flatMap fun b =>
    if isAlwaysSafeByte b ∨ (b < 0x80 ∧ Char.ofNat b ∈ safe) then
      [Char.ofNat b]
    else
      ['%', hexDigitUpper (b / 16), hexDigitUpper (b % 16)]

/-- `quote_plus(string, safe)`: when the string contains a space, quote with
the space added to `safe` and then replace each space by `+`. -/
def pyQuotePlus (safe : List Char) (s : PyStr) : PyStr :=
  if ' ' ∈ s then
    (pyQuote (safe ++ [' ']) s).map (fun c => if c = ' ' then '+' else c)
  else pyQuote safe s

/-- Value of an ASCII hex digit (`bytes.fromhex` accepts both cases). -/
def hexVal? (c : Char) : Option Nat :=
  if isAsciiDigit c then some (c.toNat - '0'.toNat)
  else if 'a' ≤ c ∧ c ≤ 'f' then some (c.toNat - 'a'.toNat + 10)
  else if 'A' ≤ c ∧ c ≤ 'F' then some (c.toNat - 'A'.toNat + 10)
  else none

/-- One step of UTF-8 decoding with the `errors='replace'` handler: decode a
leading sequence of the byte list, or produce U+FFFD for a maximal invalid
part.  Returns the decoded character and the number of bytes consumed
(at least one). -/
def utf8DecodeStep (b0 : Nat) (rest : List Nat) : Char × Nat :=
  let cont := fun (b : Nat) => 0x80 ≤ b ∧ b < 0xC0
  if b0 < 0x80 then (Char.ofNat b0, 1)
  else if 0xC2 ≤ b0 ∧ b0 < 0xE0 then
    match rest with
    | b1 :: _ =>
      if cont b1 then (Char.ofNat ((b0 - 0xC0) * 0x40 + (b1 - 0x80)), 2)
      else ('�', 1)
    | [] => ('�', 1)
  else if 0xE0 ≤ b0 ∧ b0 < 0xF0 then
    match rest with
    | b1 :: b1rest =>
      if cont b1 ∧ (b0 ≠ 0xE0 ∨ 0xA0 ≤ b1) ∧ (b0 ≠ 0xED ∨ b1 < 0xA0) then
        match b1rest with
        | b2 :: _ =>
          if cont b2 then
            (Char.ofNat ((b0 - 0xE0) * 0x1000 + (b1 - 0x80) * 0x40 +
              (b2 - 0x80)), 3)
          else ('�', 2)
        | [] => ('�', 2)
      else ('�', 1)
    | [] => ('�', 1)
  else if 0xF0 ≤ b0 ∧ b0 < 0xF5 then
    match rest with
    | b1 :: b1rest =>
      if cont b1 ∧ (b0 ≠ 0xF0 ∨ 0x90 ≤ b1) ∧ (b0 ≠ 0xF4 ∨ b1 < 0x90) then
        match b1rest with
        | b2 :: b2rest =>
          if cont b2 then
            match b2rest with
            | b3 :: _ =>
              if cont b3 then
                (Char.ofNat ((b0 - 0xF0) * 0x40000 + (b1 - 0x80) * 0x1000 +
                  (b2 - 0x80) * 0x40 + (b3 - 0x80)), 4)
              else ('�', 3)
            | [] => ('�', 3)
          else ('�', 2)
        | [] => ('�', 2)
      else ('�', 1)
    | [] => ('�', 1)
  else ('�', 1)

/-- UTF-8 decoding of a byte list with `errors='replace'` (fuel-indexed so
that the definition is structurally recursive and kernel-reducible). -/
def utf8DecodeReplaceAux : Nat → List Nat → List Char
  | 0, _ => []
  | _, [] => []
  | fuel + 1, b :: bs =>
    let (c, k) := utf8DecodeStep b bs
    c :: utf8DecodeReplaceAux fuel (bs.drop (k - 1))

/-- `bytes(l).decode('utf-8', 'replace')`. -/
def utf8DecodeReplace (l : List Nat) : List Char :=
  utf8DecodeReplaceAux l.length l

/-- Scanner for `unquote`: literal characters pass through; maximal runs of
bytes produced by `%XX` escapes (a `%` not followed by two hex digits stays
literal, contributing byte `0x25` to the run, as in `unquote_to_bytes`) are
UTF-8-decoded with replacement.  `acc` holds the current byte run reversed.
Fuel-indexed for structural recursion. -/
def pyUnquoteAux : Nat → List Nat → PyStr → PyStr
  | 0, acc, _ => utf8DecodeReplace acc.reverse
  | _, acc, [] => utf8DecodeReplace acc.reverse
  | fuel + 1, acc, c :: cs =>
    if c = '%' then
      match cs with
      | c1 :: c2 :: cs' =>
        match hexVal? c1, hexVal? c2 with
        | some h, some l => pyUnquoteAux fuel ((h * 16 + l) :: acc) cs'
        | _, _ => pyUnquoteAux fuel (0x25 :: acc) cs
      | _ => pyUnquoteAux fuel (0x25 :: acc) cs
    else if c.toNat < 0x80 then
      pyUnquoteAux fuel (c.toNat :: acc) cs
    else
      utf8DecodeReplace acc.reverse ++ c :: pyUnquoteAux fuel [] cs

/-- `unquote(string, encoding='utf-8', errors='replace')`.  Literal ASCII
characters and `%XX` bytes in the same ASCII run are decoded together (as in
CPython, which splits on `_asciire` and decodes each ASCII run as a whole);
non-ASCII literal characters pass through unchanged. -/
def pyUnquote (s : PyStr) : PyStr := pyUnquoteAux s.length [] s

/-! ## Query-string parsing and encoding
(`parse_qsl`, `parse_qs`, `sorted`, `urlencode`) -/

/-- One field of `parse_qsl` (default flags: `keep_blank_values=False`,
`strict_parsing=False`, `separator='&'`): fields without `=` and fields with
an empty value are dropped; `+` becomes a space and percent-escapes are
decoded in both name and value. -/
def parseQslField (nv : PyStr) : Option (PyStr × PyStr) :=
  match splitOnceChar '=' nv with
  | none => none
  | some (n, v) =>
    if v = [] then none
    else
      some (pyUnquote (n.map fun c => if c = '+' then ' ' else c),
            pyUnquote (v.map fun c => if c = '+' then ' ' else c))

/-- `parse_qsl(qs)` with the scraper's default arguments. -/
def parse_qsl (qs : PyStr) : List (PyStr × PyStr) :=
  if qs = [] then []
  else (splitAllChar '&' qs).filterMap fun nv =>
    if nv = [] then none else parseQslField nv

/-- Insert one parsed field into the accumulating dictionary, preserving
first-appearance key order and appending the value to an existing key's
list (model of the `dict` built by `parse_qs`). -/
def addQsParam (acc : List (PyStr × List PyStr)) (kv : PyStr × PyStr) :
    List (PyStr × List PyStr) :=
  match acc with
  | [] => [(kv.1, [kv.2])]
  | (k, vs) :: rest =>
    if k = kv.1 then (k, vs ++ [kv.2]) :: rest
    else (k, vs) :: addQsParam rest kv

/-- `parse_qs(qs)`: group the `parse_qsl` fields by key.  The resulting
association list has pairwise-distinct keys, in first-appearance order
(insertion order of a Python `dict`). -/
def parse_qs (qs : PyStr) : List (PyStr × List PyStr) :=
  (parse_qsl qs).foldl addQsParam []

/-- Lexicographic (code-point) strict comparison of Python strings. -/
def strLt : PyStr → PyStr → Bool
  | [], [] => false
  | [], _ :: _ => true
  | _ :: _, [] => false
  | a :: as_, b :: bs => if a = b then strLt as_ bs else decide (a < b)

/-- Lexicographic strict comparison of lists of strings (Python list
comparison, as used when `sorted` compares two `(key, values)` tuples with
equal keys — unreachable for `dict.items()`, whose keys are distinct). -/
def listStrLt : List PyStr → List PyStr → Bool
  | [], [] => false
  | [], _ :: _ => true
  | _ :: _, [] => false
  | a :: as_, b :: bs => if a = b then listStrLt as_ bs else strLt a b

/-- Python tuple comparison `(k1, v1) <= (k2, v2)` for the items of
`parse_qs`: key order first, value-list order on equal keys. -/
def qsItemLe (x y : PyStr × List PyStr) : Bool :=
  strLt x.1 y.1 ∨ (x.1 = y.1 ∧ (listStrLt x.2 y.2 ∨ x.2 = y.2))

/-- Stable insertion of `x` into a list sorted by `le`: `x` goes after every
earlier element `y` with `le y x`. -/
def insertLe {α : Type} (le : α → α → Bool) (x : α) : List α → List α
  | [] => [x]
  | y :: ys => if le y x then y :: insertLe le x ys else x :: y :: ys

/-- Model of Python `sorted` (a stable ascending sort; insertion sort gives
the same result as Timsort for a total preorder). -/
def pySorted {α : Type} (le : α → α → Bool) (l : List α) : List α :=
  l.foldl (fun acc x => insertLe le x acc) []

/-- Python `repr` of a string, as produced by `str(list_of_str)` inside
`urlencode`: prefer single quotes, switch to double quotes when the string
contains a single quote but no double quote; escape backslash, the chosen
quote, tab, LF, CR as two-character escapes and other C0/DEL characters as
`\xXX`.  (Non-ASCII printable characters are kept as-is; CPython would
escape non-printable non-ASCII characters too, which no theorem below
relies on.) -/
def pyReprStr (s : PyStr) : PyStr :=
  let q : Char := if '\'' ∈ s ∧ ¬ ('"' ∈ s) then '"' else '\''
  let hexByte : Nat → PyStr := fun n =>
    ['\\', 'x',
     Char.toLower (hexDigitUpper (n / 16)), Char.toLower (hexDigitUpper (n % 16))]
  q :: (s.flatMap fun c =>
    if c = '\\' then ['\\', '\\']
    else if c = q then ['\\', q]
    else if c = '\t' then ['\\', 't']
    else if c = '\n' then ['\\', 'n']
    else if c = '\r' then ['\\', 'r']
    else if c.toNat < 0x20 ∨ c.toNat = 0x7F then hexByte c.toNat
    else [c]) ++ [q]

/-- Python `str` of a list of strings: `'[' + ', '.join(map(repr, v)) + ']'`. -/
def pyReprStrList (vs : List PyStr) : PyStr :=
  '[' :: joinSep (pys ", ") (vs.map pyReprStr) ++ [']']

/-- `urlencode(query)` with `doseq=False`, `safe=''`, `quote_via=quote_plus`,
applied (as in `normalize_url`) to the sorted items of a `parse_qs` result:
each value is a *list* of strings, so `str(v)` is its Python repr — the
well-known `doseq` pitfall, reproduced faithfully. -/
def urlencode (query : List (PyStr × List PyStr)) : PyStr :=
  joinSep ['&'] (query.map fun kv =>
    pyQuotePlus [] kv.1 ++ '=' :: pyQuotePlus [] (pyReprStrList kv.2))

/-! ## URL splitting and joining
(`urlsplit`, `urlparse`, `urlunsplit`, `urlunparse`) -/

/-- The `uses_netloc` scheme table of `urllib.parse`. -/
def uses_netloc : List PyStr :=
  [pys "", pys "ftp", pys "http", pys "gopher", pys "nntp", pys "telnet",
   pys "imap", pys "wais", pys "file", pys "mms", pys "https", pys "shttp",
   pys "snews", pys "prospero", pys "rtsp", pys "rtsps", pys "rtspu",
   pys "rsync", pys "svn", pys "svn+ssh", pys "sftp", pys "nfs", pys "git",
   pys "git+ssh", pys "ws", pys "wss"]

/-- The `uses_params` scheme table of `urllib.parse`. -/
def uses_params : List PyStr :=
  [pys "", pys "ftp", pys "hdl", pys "prospero", pys "http", pys "imap",
   pys "https", pys "shttp", pys "rtsp", pys "rtsps", pys "rtspu", pys "sip",
   pys "sips", pys "mms", pys "sftp", pys "tel"]

/-- Result of `urlsplit`: `(scheme, netloc, path, query, fragment)`. -/
structure SplitResult where
  scheme : PyStr
  netloc : PyStr
  path : PyStr
  query : PyStr
  fragment : PyStr
deriving DecidableEq, Repr

/-- Result of `urlparse`: `urlsplit` plus the params component. -/
structure ParseResult where
  scheme : PyStr
  netloc : PyStr
  path : PyStr
  params : PyStr
  query : PyStr
  fragment : PyStr
deriving DecidableEq, Repr

/-- The scheme test of `urlsplit`: `i = url.find(':')`, `i > 0`, first
character ASCII alphabetic, all characters before the colon in
`scheme_chars`; on success the scheme is lower-cased and the remainder
follows the colon. -/
def schemeSplit (url : PyStr) : Option (PyStr × PyStr) :=
  match splitOnceChar ':' url with
  | none => none
  | some (before, after) =>
    match before with
    | [] => none
    | c0 :: _ =>
      if (c0.toNat < 0x80 ∧ isAsciiAlpha c0) ∧ before.all isSchemeChar then
        some (pyLower before, after)
      else none

/-- `_splitnetloc(url, 2)`: the netloc extends to the first `/`, `?` or `#`. -/
def splitnetloc (rest : PyStr) : PyStr × PyStr :=
  (rest.takeWhile (fun c => c ≠ '/' ∧ c ≠ '?' ∧ c ≠ '#'),
   rest.dropWhile (fun c => c ≠ '/' ∧ c ≠ '?' ∧ c ≠ '#'))

/-- The bracket-balance test on a netloc that makes `urlsplit` raise
`ValueError("Invalid IPv6 URL")`. -/
def bracketsUnbalanced (netloc : PyStr) : Bool :=
  ('[' ∈ netloc ∧ ¬ (']' ∈ netloc)) ∨ (']' ∈ netloc ∧ ¬ ('[' ∈ netloc))

/-- The fragment and query splits at the end of `urlsplit`
(`url, fragment = url.split('#', 1)` when `#` occurs, then
`url, query = url.split('?', 1)` when `?` occurs), returning
`(path, query, fragment)`. -/
def splitFragmentQuery (url : PyStr) : PyStr × PyStr × PyStr :=
  let (url, fragment) :=
    match splitOnceChar '#' url with
    | some (a, b) => (a, b)
    | none => (url, [])
  let (url, query) :=
    match splitOnceChar '?' url with
    | some (a, b) => (a, b)
    | none => (url, [])
  (url, query, fragment)

/-- `urlsplit(url)` with the scraper's default arguments
(`scheme=''`, `allow_fragments=True`).  The `ValueError` on an unbalanced
bracket in the netloc is `Except.error ()` (in the no-netloc branch the
check is vacuous: `netloc` stays `''`).  Two further checks are modelled
as accepting: `_checknetloc` (NFKC check, a no-op for ASCII netlocs) and
`_check_bracketed_host` (validation of bracketed IP addresses, added in
CPython 3.11; balanced-bracket netlocs are accepted here as in
CPython ≤ 3.10). -/
def urlsplit (url : PyStr) : Except Unit SplitResult :=
  let url := removeUnsafe (lstripC0 url)
  let (scheme, url) :=
    match schemeSplit url with
    | some (s, rest) => (s, rest)
    | none => (([] : PyStr), url)
  if url.take 2 = ['/', '/'] then
    let (netloc, url) := splitnetloc (url.drop 2)
    if bracketsUnbalanced netloc then Except.error ()
    else
      let (path, query, fragment) := splitFragmentQuery url
      Except.ok ⟨scheme, netloc, path, query, fragment⟩
  else
    let (path, query, fragment) := splitFragmentQuery url
    Except.ok ⟨scheme, [], path, query, fragment⟩

/-- The last segment of a path: what follows the final `/` (the whole
path when there is no `/`). -/
def lastSeg (p : PyStr) : PyStr := (p.reverse.takeWhile (· ≠ '/')).reverse

/-- The complement of `lastSeg`: the path up to and including its final
`/`. -/
def segBody (p : PyStr) : PyStr := (p.reverse.dropWhile (· ≠ '/')).reverse

/-- `_splitparams(url)`: split the params off the last path segment — from
the first `;` at or after the last `/` (`url.find(';', url.rfind('/'))`),
or from the first `;` anywhere when the path has no `/`. -/
def splitparams (p : PyStr) : PyStr × PyStr :=
  if '/' ∈ p then
    match splitOnceChar ';' (lastSeg p) with
    | none => (p, [])
    | some (a, b) => (segBody p ++ a, b)
  else
    match splitOnceChar ';' p with
    | none => (p, [])
    | some (a, b) => (a, b)

/-- `urlparse(url)`: `urlsplit`, then split params off the path when the
scheme is in `uses_params` and the path contains a `;`. -/
def urlparse (url : PyStr) : Except Unit ParseResult := do
  let r ← urlsplit url
  let (p, params) :=
    if r.scheme ∈ uses_params ∧ ';' ∈ r.path then splitparams r.path
    else (r.path, [])
  pure ⟨r.scheme, r.netloc, p, params, r.query, r.fragment⟩

/-- `urlunsplit(components)` (CPython 3.11: the `//` prefix is added when
the netloc is non-empty, or when the scheme is in `uses_netloc` and the
path does not already start with `//`). -/
def urlunsplit (s : SplitResult) : PyStr :=
  let url := s.path
  let url :=
    if s.netloc ≠ [] ∨ (s.scheme ≠ [] ∧ s.scheme ∈ uses_netloc ∧
        url.take 2 ≠ ['/', '/']) then
      let url := if url ≠ [] ∧ url.take 1 ≠ ['/'] then '/' :: url else url
      '/' :: '/' :: (s.netloc ++ url)
    else url
  let url := if s.scheme ≠ [] then s.scheme ++ ':' :: url else url
  let url := if s.query ≠ [] then url ++ '?' :: s.query else url
  if s.fragment ≠ [] then url ++ '#' :: s.fragment else url

/-- `urlunparse(components)`: re-attach params (empty in every call the
scraper makes) and `urlunsplit`. -/
def urlunparse (r : ParseResult) : PyStr :=
  urlunsplit ⟨r.scheme, r.netloc,
    (if r.params ≠ [] then r.path ++ ';' :: r.params else r.path),
    r.query, r.fragment⟩

/-! ## The scraper's own URL canonicalizer (`scraper.py` lines 14-28) -/

/-- `normalize_url(url)`: parse, sort the `parse_qs` dictionary items,
re-encode them with `urlencode` (without `doseq`, hence through the Python
`repr` of each value list), and unparse with lower-cased scheme and netloc,
the path stripped of trailing slashes, and params and fragment dropped.
An exception propagates to the caller (`Except.error`). -/
def normalize_url (url : PyStr) : Except Unit PyStr := do
  let parsed ← urlparse url
  let query_params := parse_qs parsed.query
  let sorted_query := urlencode (pySorted qsItemLe query_params)
  pure (urlunparse ⟨pyLower parsed.scheme, pyLower parsed.netloc,
    rstripSlash parsed.path, [], sorted_query, []⟩)

/-! ## The scraper (`scraper.py` lines 30-187)

`generate_unique_id(url)` is `hashlib.md5(url.encode()).hexdigest()`.  The
MD5 digest is an external library call whose only properties the program
relies on are determinism and (practical) injectivity; it is modelled as a
function parameter `uid : PyStr → PyStr` of each definition that calls it,
so that each theorem states explicitly which property of the digest it
uses. -/

/-- Python whitespace characters (the ASCII ones), as stripped/split by
`str.strip()` and `str.split()`. -/
def pyIsSpace (c : Char) : Bool :=
  c = ' ' ∨ c = '\t' ∨ c = '\n' ∨ c = '\r' ∨ c.toNat = 0x0B ∨ c.toNat = 0x0C

/-- Python `str.strip()` (no arguments): strip whitespace on both ends. -/
def pyStrip (s : PyStr) : PyStr :=
  ((s.dropWhile pyIsSpace).reverse.dropWhile pyIsSpace).reverse

/-- Split at every character satisfying `p` (keeping empty pieces). -/
def splitAllPred (p : Char → Bool) : PyStr → List PyStr
  | [] => [[]]
  | x :: xs =>
    let r := splitAllPred p xs
    if p x then [] :: r
    else
      match r with
      | [] => [[x]]
      | y :: ys => (x :: y) :: ys

/-- Python `str.split()` (no arguments): split on whitespace runs,
dropping empty pieces. -/
def pySplitWs (s : PyStr) : List PyStr :=
  (splitAllPred pyIsSpace s).filter (· ≠ [])

/-- Does `hay` start with `needle`? -/
def listStarts (needle hay : PyStr) : Bool :=
  match needle, hay with
  | [], _ => true
  | _ :: _, [] => false
  | a :: as_, b :: bs => a = b ∧ listStarts as_ bs

/-- Python substring membership `needle in hay`. -/
def pyInStr (needle hay : PyStr) : Bool :=
  listStarts needle hay ||
    match hay with
    | [] => false
    | _ :: t => pyInStr needle t

/-- `is_relevant_result(title, snippet, query)` (`scraper.py` lines 59-64):
some whitespace-split token of the lower-cased query occurs as a substring
of the lower-cased title or of the lower-cased snippet. -/
def is_relevant_result (title snippet query : PyStr) : Bool :=
  let query_keywords := pySplitWs (pyLower query)
  let title := pyLower title
  let snippet := pyLower snippet
  query_keywords.any (fun k => pyInStr k title) ∨
    query_keywords.any (fun k => pyInStr k snippet)

/-- One parsed `li.b_algo` listing entry, after the extraction on
`scraper.py` lines 84-90: `title` and `url` are `""` when the `h2 a`
anchor (or its `href`) is missing, `snippet` is `""` when the caption is
missing. -/
structure Entry where
  title : PyStr
  url : PyStr
  snippet : PyStr
deriving DecidableEq, Repr

/-- One element of the scraper's result list: the
`(query, {title, url, snippet, unique_id})` pair appended on
`scraper.py` lines 99-104, flattened into one record. -/
structure CandidateRecord where
  query : PyStr
  title : PyStr
  url : PyStr
  snippet : PyStr
  unique_id : PyStr
deriving DecidableEq, Repr

/-- The outcome of one listing fetch+parse (`crawler.arun` plus
`BeautifulSoup` on `scraper.py` lines 81-82): either the parsed entries or
the exception case.  The request URL
(`https://www.bing.com/search?q=...&first=(page_number-1)*10`, lines
69-75) is part of the abstracted fetch: the environment is indexed by
query and page number. -/
inductive ListingResponse where
  | failure
  | listing (entries : List Entry)

/-- The entry filter on `scraper.py` line 92:
`if title and result_url and is_relevant_result(title, snippet, query)`. -/
def entryPasses (query : PyStr) (e : Entry) : Bool :=
  e.title ≠ [] ∧ e.url ≠ [] ∧ is_relevant_result e.title e.snippet query

/-- The `for li in soup.select("li.b_algo")` loop of `scrape_query`
(`scraper.py` lines 84-106), run inside the function's `try`.  The state is
the `seen_urls` argument: `some s` models the caller's set (a list used
only through membership and insertion), `none` models the default
`seen_urls=None`.  An exception — `normalize_url` raising `ValueError`, or
the membership test `normalized_url not in seen_urls` raising `TypeError`
when `seen_urls` is `None` — aborts the loop, discarding the local
`results` list but keeping every mutation already made to the caller's
set; the `Except.error` payload is the state at the raise. -/
def scrape_query_loop (uid : PyStr → PyStr) (query : PyStr) :
    List Entry → Option (List PyStr) →
    Except (Option (List PyStr)) (List CandidateRecord × Option (List PyStr))
  | [], seen => .ok ([], seen)
  | e :: rest, seen =>
    if entryPasses query e then
      match normalize_url e.url with
      | .error _ => .error seen
      | .ok normalized_url =>
        match seen with
        | none => .error none
        | some s =>
          if normalized_url ∈ s then scrape_query_loop uid query rest (some s)
          else
            match scrape_query_loop uid query rest
                (some (normalized_url :: s)) with
            | .error st => .error st
            | .ok (rs, seen') =>
              .ok (⟨query, e.title, e.url, e.snippet, uid normalized_url⟩
                     :: rs, seen')
    else scrape_query_loop uid query rest seen

/-- `scrape_query(query, page_number, seen_urls)` (`scraper.py` lines
66-114): run the entry loop on the fetched listing; any exception — a
fetch/parse failure (`ListingResponse.failure`) or an exception inside the
loop — is swallowed by the `except` on line 112 and the function returns
`[]`.  Returns the results together with the (possibly mutated) registry. -/
def scrape_query (uid : PyStr → PyStr) (query : PyStr)
    (response : ListingResponse) (seen_urls : Option (List PyStr)) :
    List CandidateRecord × Option (List PyStr) :=
  match response with
  | .failure => ([], seen_urls)
  | .listing entries =>
    match scrape_query_loop uid query entries seen_urls with
    | .ok (results, seen') => (results, seen')
    | .error st => ([], st)

/-! ## The page-content fetcher (`scraper.py` lines 116-149) -/

/-- The outcome of one `crawler.arun(url, ...)` attempt inside
`scrape_page_and_save`: either the exception case (network/timeout — a
hard failure), or a response whose `markdown` body is `markdown` and from
which `BeautifulSoup(...).get_text(separator="\n", strip=True)` extracts
`text` (the HTML parser is an external collaborator, so the extracted text
is part of the abstracted outcome). -/
inductive AttemptOutcome where
  | raiseErr
  | page (markdown : PyStr) (text : PyStr)

/-- Observable behaviour of one `scrape_page_and_save` call: how many fetch
attempts ran, which backoff sleeps (`await asyncio.sleep(5 * attempt)`)
happened between them, and what was stored to the content sink (the file
`scraped_pages/{unique_id}.md`, recorded as `(unique_id, text)`), if
anything. -/
structure FetchTrace where
  attempts : Nat
  sleeps : List Nat
  saved : Option (PyStr × PyStr)
deriving DecidableEq, Repr

/-- The `for attempt in range(1, max_retries + 1)` loop of
`scrape_page_and_save`, over the list of remaining attempt numbers.  A
non-exception attempt always ends the loop: empty markdown or empty
stripped text returns with nothing stored (lines 124-132), otherwise the
text is written and the function returns (lines 134-140).  An exception
sleeps `5 * attempt` and continues when `attempt < max_retries`, and gives
up otherwise (lines 142-149). -/
def fetch_attempts (env : Nat → AttemptOutcome) (unique_id : PyStr)
    (max_retries : Nat) : List Nat → FetchTrace
  | [] => ⟨0, [], none⟩
  | attempt :: rest =>
    match env attempt with
    | .raiseErr =>
      if attempt < max_retries then
        let t := fetch_attempts env unique_id max_retries rest
        ⟨t.attempts + 1, 5 * attempt :: t.sleeps, t.saved⟩
      else ⟨1, [], none⟩
    | .page markdown text =>
      if markdown = [] ∨ pyStrip markdown = [] then ⟨1, [], none⟩
      else if pyStrip text = [] then ⟨1, [], none⟩
      else ⟨1, [], some (unique_id, text)⟩

/-- `scrape_page_and_save(url, unique_id, max_retries)`: the crawler at
`url` is the abstract per-attempt environment `env`, so the `url` argument
itself is subsumed by `env`. -/
def scrape_page_and_save (env : Nat → AttemptOutcome) (unique_id : PyStr)
    (max_retries : Nat) : FetchTrace :=
  fetch_attempts env unique_id max_retries (List.range' 1 max_retries)

/-! ## CSV export (`scraper.py` lines 34-57) -/

/-- The data rows written by `save_to_csv(results)`: one row per record
whose normalized URL was not already written, deduplicated through the
function's local `seen_urls` set (passed here as the `seen` accumulator,
initially empty).  The header row, the timestamped file name and the
filesystem side effects are not modelled; a row is recorded as the
record it was written from (the row holds exactly its fields, in order
`query, title, url, snippet, unique_id`).  `normalize_url` is called
outside any handler (line 50), so its `ValueError` would propagate —
hence the `Except`. -/
def save_to_csv_rows : List CandidateRecord → List PyStr →
    Except Unit (List CandidateRecord)
  | [], _ => .ok []
  | r :: rest, seen => do
    let normalized_url ← normalize_url r.url
    if normalized_url ∈ seen then save_to_csv_rows rest seen
    else do
      let rows ← save_to_csv_rows rest (normalized_url :: seen)
      pure (r :: rows)

/-! ## The orchestrator (`scraper.py` lines 151-187) -/

/-- The inner `for page_number in range(1, 11)` loop of
`scrape_multiple_queries`, over the list of page numbers still to fetch.
The accumulator carries the growing `all_results`, the shared `seen_urls`
set, and (for observability) the log of `(query, page_number)` listing
fetches issued, in order.  `scrape_query` is always called with the shared
set (never `None`), and in that case it always returns `some` registry;
the `none` fallback keeps the previous set and is unreachable. -/
def collect_pages (uid : PyStr → PyStr) (env : PyStr → Nat → ListingResponse)
    (query : PyStr) :
    List Nat → List CandidateRecord × List PyStr × List (PyStr × Nat) →
    List CandidateRecord × List PyStr × List (PyStr × Nat)
  | [], acc => acc
  | page_number :: ps, (all_results, seen_urls, fetched) =>
    let (result_set, seen') :=
      scrape_query uid query (env query page_number) (some seen_urls)
    collect_pages uid env query ps
      (all_results ++ result_set,
       (match seen' with | some s => s | none => seen_urls),
       fetched ++ [(query, page_number)])

/-- The collection phase of `scrape_multiple_queries` (lines 153-160): for
each query in order, fetch pages 1 to 10 against the single shared
`seen_urls` registry. -/
def collect_queries (uid : PyStr → PyStr)
    (env : PyStr → Nat → ListingResponse) :
    List PyStr → List CandidateRecord × List PyStr × List (PyStr × Nat) →
    List CandidateRecord × List PyStr × List (PyStr × Nat)
  | [], acc => acc
  | query :: qs, acc =>
    collect_queries uid env qs
      (collect_pages uid env query (List.range' 1 10) acc)

/-- The full batch (`all_results`) produced by one run over `queries`. -/
def harvestBatch (uid : PyStr → PyStr) (env : PyStr → Nat → ListingResponse)
    (queries : List PyStr) : List CandidateRecord :=
  (collect_queries uid env queries ([], [], [])).1

/-- Whether the database batch save (lines 162-180) succeeds or raises;
the outcome is supplied by the environment. -/
inductive DbOutcome where
  | ok
  | fail

/-- What happened to the persistence sink: either the whole batch was
merged (upsert by `unique_id`, the sink's keying) and committed, or the
transaction was rolled back after the caught exception (lines 176-178). -/
inductive DbResult where
  | committed (rows : List CandidateRecord)
  | rolledBack
deriving DecidableEq, Repr

/-- Observable behaviour of one `scrape_multiple_queries(queries)` run. -/
structure RunTrace where
  batch : List CandidateRecord
  fetchedPages : List (PyStr × Nat)
  db : DbResult
  csvRows : List CandidateRecord
  contentTasks : List (PyStr × PyStr)
deriving Repr

/-- `scrape_multiple_queries(queries)` (lines 151-187): collect all pages
of all queries into `all_results` sharing one `seen_urls` set; hand the
batch to the database (a failure is caught, logged and rolled back, and
the run continues); write the CSV rows; launch one content-fetch task
`scrape_page_and_save(item["url"], item["unique_id"])` per record (the
tasks are recorded as `(url, unique_id)` pairs; their own traces are
covered by `scrape_page_and_save`).  An uncaught exception anywhere else
(only `save_to_csv`'s `normalize_url` call could raise, which the
collection phase makes impossible) is the `Except.error` case. -/
def scrape_multiple_queries (uid : PyStr → PyStr)
    (env : PyStr → Nat → ListingResponse) (dbo : DbOutcome)
    (queries : List PyStr) : Except Unit RunTrace := do
  let (all_results, _seen, fetched) := collect_queries uid env queries ([], [], [])
  let db := match dbo with
    | .ok => DbResult.committed all_results
    | .fail => DbResult.rolledBack
  let csv ← save_to_csv_rows all_results []
  let tasks := all_results.map fun item => (item.url, item.unique_id)
  pure ⟨all_results, fetched, db, csv, tasks⟩

/-! # Theorems -/

/-! ## Retry bound and backoff (claim C5) -/

/-- `fetch_attempts` over the attempt numbers `a, a+1, …, a+k-1` (with
`a + k = max_retries + 1`, as in the actual call) performs at most `k`
attempts, and sleeps exactly `5 * i` after each attempt `i` except the
last one performed. -/
theorem fetch_attempts_spec (env : Nat → AttemptOutcome) (u : PyStr)
    (m : Nat) :
    ∀ (k a : Nat), a + k = m + 1 →
      (fetch_attempts env u m (List.range' a k)).attempts ≤ k ∧
      (fetch_attempts env u m (List.range' a k)).sleeps =
        (List.range' a ((fetch_attempts env u m (List.range' a k)).attempts
          - 1)).map (fun i => 5 * i) := by
  intro k
  induction k with
  | zero => intro a _; simp [fetch_attempts]
  | succ k ih =>
    intro a hak
    rw [List.range'_succ]
    simp only [fetch_attempts]
    cases h : env a with
    | raiseErr =>
      by_cases hlt : a < m
      · have hk1 : 1 ≤ k := by omega
        obtain ⟨h1, h2⟩ := ih (a + 1) (by omega)
        have hpos : 1 ≤ (fetch_attempts env u m (List.range' (a+1) k)).attempts := by
          have hne : List.range' (a+1) k ≠ [] := by
            intro hnil
            rw [List.range'_eq_nil] at hnil
            omega
          cases hr : List.range' (a+1) k with
          | nil => exact absurd hr hne
          | cons b bs =>
            simp only [fetch_attempts]
            cases env b with
            | raiseErr =>
              by_cases hb : b < m <;> simp [hb]
            | page md txt =>
              by_cases hmd : md = [] ∨ pyStrip md = []
              · simp [hmd]
              · by_cases htxt : pyStrip txt = [] <;> simp [hmd, htxt]
        simp only [hlt, if_pos]
        refine ⟨by omega, ?_⟩
        have heq : (fetch_attempts env u m (List.range' (a+1) k)).attempts + 1 - 1 =
            ((fetch_attempts env u m (List.range' (a+1) k)).attempts - 1) + 1 := by
          omega
        rw [heq, List.range'_succ, List.map_cons, h2]
      · simp [hlt]
    | page md txt =>
      by_cases hmd : md = [] ∨ pyStrip md = []
      · refine ⟨?_, ?_⟩ <;> simp [hmd]
      · by_cases htxt : pyStrip txt = []
        · refine ⟨?_, ?_⟩ <;> simp [hmd, htxt]
        · refine ⟨?_, ?_⟩ <;> simp [hmd, htxt]

/-- C5.  For every URL (its crawler being the per-attempt environment
`env`), recordId and `max_retries`, one `scrape_page_and_save` invocation
performs at most `max_retries` fetch attempts, and the backoff sleeps it
performs are exactly `5 * attempt` time units after each hard-failed
attempt that is followed by another attempt. -/
theorem c5_retry_bound_and_backoff (env : Nat → AttemptOutcome)
    (unique_id : PyStr) (max_retries : Nat) :
    (scrape_page_and_save env unique_id max_retries).attempts ≤ max_retries ∧
    (scrape_page_and_save env unique_id max_retries).sleeps =
      (List.range' 1 ((scrape_page_and_save env unique_id max_retries).attempts
        - 1)).map (fun i => 5 * i) :=
  fetch_attempts_spec env unique_id max_retries max_retries 1 (by omega)

/-! ## Soft failure on empty content (claim C6) -/

/-- `fetch_attempts` when attempts `1, …, k-1` raise and attempt `k`
returns a page with empty markdown or empty extracted text: the loop ends
at attempt `k` with nothing stored, slept only for the earlier hard
failures. -/
theorem fetch_attempts_soft (env : Nat → AttemptOutcome) (u : PyStr)
    (m k : Nat) (hkm : k ≤ m)
    (hraise : ∀ j, 1 ≤ j → j < k → env j = AttemptOutcome.raiseErr)
    (md txt : PyStr) (henv : env k = AttemptOutcome.page md txt)
    (hempty : md = [] ∨ pyStrip md = [] ∨ pyStrip txt = []) :
    ∀ (n a : Nat), 1 ≤ a → a ≤ k → a + n = m + 1 →
      fetch_attempts env u m (List.range' a n) =
        ⟨k - a + 1, (List.range' a (k - a)).map (fun i => 5 * i), none⟩ := by
  intro n
  induction n with
  | zero => intro a _ hak han; omega
  | succ n ih =>
    intro a ha1 hak han
    rw [List.range'_succ]
    simp only [fetch_attempts]
    by_cases hlt : a < k
    · rw [hraise a ha1 hlt]
      have ham : a < m := by omega
      simp only [ham, if_pos]
      rw [ih (a + 1) (by omega) (by omega) (by omega)]
      have hka : k - a = (k - (a + 1)) + 1 := by omega
      rw [hka, List.range'_succ, List.map_cons]
    · have hae : k = a := by omega
      rw [← hae, henv]
      have hz : k - k = 0 := by omega
      rcases hempty with h1 | h1 | h1
      · simp [h1, hz]
      · simp [h1, hz]
      · by_cases hmd : md = [] ∨ pyStrip md = []
        · simp [hmd, hz]
        · simp [hmd, h1, hz]

/-- C6.  If the page fetcher reaches attempt `k` (all earlier attempts
were hard failures) and that attempt returns an empty body, or a body from
which no text remains after stripping markup, then `scrape_page_and_save`
returns at once: exactly `k` attempts, no further retry, no backoff sleep
for attempt `k`, and nothing stored to the content sink. -/
theorem c6_empty_content_gives_up_immediately (env : Nat → AttemptOutcome)
    (unique_id : PyStr) (max_retries k : Nat)
    (hk1 : 1 ≤ k) (hkm : k ≤ max_retries)
    (hraise : ∀ j, 1 ≤ j → j < k → env j = AttemptOutcome.raiseErr)
    (md txt : PyStr) (henv : env k = AttemptOutcome.page md txt)
    (hempty : md = [] ∨ pyStrip md = [] ∨ pyStrip txt = []) :
    scrape_page_and_save env unique_id max_retries =
      ⟨k, (List.range' 1 (k - 1)).map (fun i => 5 * i), none⟩ := by
  have h := fetch_attempts_soft env unique_id max_retries k hkm hraise md txt
    henv hempty max_retries 1 (by omega) hk1 (by omega)
  rw [scrape_page_and_save, h]
  have : k - 1 + 1 = k := by omega
  rw [this]

/-- Witness for C6: with `max_retries = 3`, a hard failure on attempt 1
and an empty body on attempt 2, the fetcher stops after attempt 2 having
slept once (5 time units after attempt 1) and stored nothing. -/
theorem c6_empty_content_witness :
    scrape_page_and_save
      (fun j => if j = 1 then AttemptOutcome.raiseErr
                else AttemptOutcome.page [] []) (pys "r") 3 =
      ⟨2, [5], none⟩ :=
  (c6_empty_content_gives_up_immediately _ (pys "r") 3 2 (by omega) (by omega)
    (fun j h1 h2 => by
      have hj : j = 1 := by omega
      subst hj; rfl)
    [] [] rfl (Or.inl rfl)).trans (by decide)

/-! ## Listing fetch errors are swallowed (claim C7) -/

/-- C7.  When the listing fetch or parse for a page raises
(`ListingResponse.failure`), `scrape_query` returns the empty sequence —
the exception never propagates, the function being total — the registry is
returned unchanged, and extending any accumulated batch with the result
leaves the batch unchanged. -/
theorem c7_listing_error_returns_empty (uid : PyStr → PyStr)
    (query : PyStr) (seen : Option (List PyStr))
    (batch : List CandidateRecord) :
    scrape_query uid query ListingResponse.failure seen = ([], seen) ∧
    batch ++ (scrape_query uid query ListingResponse.failure seen).1 =
      batch := by
  exact ⟨rfl, by simp [scrape_query]⟩

/-! ## The registry parameter defaults to `None` (claim C10) -/

/-- C10.  `seen_urls` defaults to `None` in `scrape_query`; whenever the
listing contains an entry that passes the non-empty/relevance filter, the
loop raises on that entry (the membership test on `None` — or, for an
entry whose URL cannot be canonicalized, the canonicalizer itself), the
catch-all handler swallows the exception, and the call returns the empty
list: without a caller-supplied registry no candidates are ever
returned. -/
theorem c10_none_registry_yields_nothing (uid : PyStr → PyStr)
    (query : PyStr) (entries : List Entry)
    (h : entries.any (entryPasses query) = true) :
    scrape_query_loop uid query entries none = Except.error none ∧
    scrape_query uid query (ListingResponse.listing entries) none =
      ([], none) := by
  have hloop : scrape_query_loop uid query entries none = Except.error none := by
    induction entries with
    | nil => simp at h
    | cons e rest ih =>
      rw [List.any_cons] at h
      simp only [scrape_query_loop]
      by_cases hp : entryPasses query e = true
      · simp only [hp, if_pos]
        cases normalize_url e.url with
        | error _ => rfl
        | ok n => rfl
      · simp only [hp, if_neg]
        apply ih
        simp only [Bool.or_eq_true] at h
        rcases h with h | h
        · exact absurd h hp
        · exact h
  refine ⟨hloop, ?_⟩
  simp [scrape_query, hloop]

/-- Witness for C10: one relevant, non-empty entry and no registry — the
call returns no candidates. -/
theorem c10_none_registry_witness :
    scrape_query (fun s => s) (pys "cat")
      (ListingResponse.listing [⟨pys "cat", pys "http://x/", []⟩]) none =
      ([], none) :=
  (c10_none_registry_yields_nothing (fun s => s) (pys "cat")
    [⟨pys "cat", pys "http://x/", []⟩] (by decide)).2

/-! ## Pagination never stops early (claim C2) -/

/-- The page loop logs one listing fetch per page number, in order,
whatever the responses are. -/
theorem collect_pages_fetched (uid : PyStr → PyStr)
    (env : PyStr → Nat → ListingResponse) (q : PyStr) :
    ∀ (ps : List Nat) (acc : List CandidateRecord × List PyStr ×
      List (PyStr × Nat)),
      (collect_pages uid env q ps acc).2.2 =
        acc.2.2 ++ ps.map (fun p => (q, p)) := by
  intro ps
  induction ps with
  | nil => intro acc; simp [collect_pages]
  | cons p ps ih =>
    intro acc
    obtain ⟨b, s, f⟩ := acc
    simp only [collect_pages, ih, List.map_cons]
    simp

/-- The query loop fetches pages 1-10 for every query, in order. -/
theorem collect_queries_fetched (uid : PyStr → PyStr)
    (env : PyStr → Nat → ListingResponse) :
    ∀ (qs : List PyStr) (acc : List CandidateRecord × List PyStr ×
      List (PyStr × Nat)),
      (collect_queries uid env qs acc).2.2 =
        acc.2.2 ++ qs.flatMap
          (fun q => (List.range' 1 10).map (fun p => (q, p))) := by
  intro qs
  induction qs with
  | nil => intro acc; simp [collect_queries]
  | cons q qs ih =>
    intro acc
    simp only [collect_queries, ih, collect_pages_fetched,
      List.flatMap_cons, List.append_assoc]

/-- C2 (amended).  The orchestrator has no early-termination condition:
for every query, listing pages 1 through 10 are always fetched, in input
order, regardless of how many new candidates each page yields; the only
bound on pagination is the fixed ten-page ceiling. -/
theorem c2_amended_all_ten_pages_always_fetched (uid : PyStr → PyStr)
    (env : PyStr → Nat → ListingResponse) (queries : List PyStr) :
    (collect_queries uid env queries ([], [], [])).2.2 =
      queries.flatMap (fun q => (List.range' 1 10).map (fun p => (q, p))) := by
  rw [collect_queries_fetched]
  rfl

/-! ## The dedup invariant (claim C1) -/

/-- Invariant tying a batch to the shared registry: the canonicalization
outcomes of the batch's URLs are pairwise distinct, and every record's
`unique_id` is the digest of its canonical URL, which the registry
contains. -/
def batchInv (uid : PyStr → PyStr) (batch : List CandidateRecord)
    (seen : List PyStr) : Prop :=
  (batch.map (fun r => normalize_url r.url)).Nodup ∧
  ∀ r ∈ batch, ∃ n, normalize_url r.url = Except.ok n ∧
    r.unique_id = uid n ∧ n ∈ seen

/-- Behaviour of the entry loop started on a caller-supplied registry:
either it completes, returning records whose canonical URLs are fresh
(not in the starting registry), pairwise distinct and recorded in the
final registry, which extends the starting one; or it raises, and the
registry state it leaves behind still extends the starting one. -/
theorem scrape_query_loop_some_spec (uid : PyStr → PyStr) (q : PyStr) :
    ∀ (es : List Entry) (s : List PyStr),
      (∃ rs s', scrape_query_loop uid q es (some s) = .ok (rs, some s') ∧
        (∀ x, x ∈ s → x ∈ s') ∧
        (∀ r ∈ rs, ∃ n, normalize_url r.url = Except.ok n ∧
          r.unique_id = uid n ∧ n ∈ s' ∧ ¬ n ∈ s) ∧
        (rs.map (fun r => normalize_url r.url)).Nodup) ∨
      (∃ s', scrape_query_loop uid q es (some s) = .error (some s') ∧
        (∀ x, x ∈ s → x ∈ s')) := by
  intro es
  induction es with
  | nil =>
    intro s
    exact Or.inl ⟨[], s, rfl, fun x hx => hx, by simp, by simp⟩
  | cons e rest ih =>
    intro s
    simp only [scrape_query_loop]
    by_cases hp : entryPasses q e = true
    · simp only [hp, if_pos]
      cases hn : normalize_url e.url with
      | error _ =>
        exact Or.inr ⟨s, rfl, fun x hx => hx⟩
      | ok n =>
        by_cases hmem : n ∈ s
        · simp only [hmem, if_pos]
          exact ih s
        · simp only [hmem, if_neg]
          rcases ih (n :: s) with ⟨rs, s', heq, hsub, hrec, hnd⟩ | ⟨s', heq, hsub⟩
          · rw [heq]
            refine Or.inl ⟨⟨q, e.title, e.url, e.snippet, uid n⟩ :: rs, s',
              rfl, ?_, ?_, ?_⟩
            · exact fun x hx => hsub x (List.mem_cons_of_mem n hx)
            · intro r hr
              rcases List.mem_cons.mp hr with hr | hr
              · subst hr
                exact ⟨n, hn, rfl, hsub n (List.mem_cons_self n s), hmem⟩
              · obtain ⟨n', h1, h2, h3, h4⟩ := hrec r hr
                refine ⟨n', h1, h2, h3, fun hc => h4 (List.mem_cons_of_mem n hc)⟩
            · rw [List.map_cons]
              refine List.Nodup.cons ?_ hnd
              intro hc
              rw [List.mem_map] at hc
              obtain ⟨r, hr, hkey⟩ := hc
              obtain ⟨n', h1, _, _, h4⟩ := hrec r hr
              rw [h1] at hkey
              have : n' = n := by
                have := hn ▸ hkey
                exact (Except.ok.injEq _ _ ▸ this : n' = n)
              exact h4 (this ▸ List.mem_cons_self n s)
          · rw [heq]
            exact Or.inr ⟨s', rfl,
              fun x hx => hsub x (List.mem_cons_of_mem n hx)⟩
    · simp only [hp, if_neg]
      exact ih s

/-- One `scrape_query` call on the shared registry preserves the batch
invariant: the registry only grows, and the extended batch still has
pairwise-distinct canonical URLs, all registered. -/
theorem scrape_query_preserves_inv (uid : PyStr → PyStr) (q : PyStr)
    (resp : ListingResponse) (batch : List CandidateRecord)
    (seen : List PyStr) (h : batchInv uid batch seen) :
    ∃ s', (∀ x, x ∈ seen → x ∈ s') ∧
      (scrape_query uid q resp (some seen)).2 = some s' ∧
      batchInv uid (batch ++ (scrape_query uid q resp (some seen)).1) s' := by
  obtain ⟨hnd, hmem⟩ := h
  cases resp with
  | failure =>
    refine ⟨seen, fun x hx => hx, rfl, ?_⟩
    simp only [scrape_query, List.append_nil]
    exact ⟨hnd, hmem⟩
  | listing es =>
    rcases scrape_query_loop_some_spec uid q es seen with
      ⟨rs, s', heq, hsub, hrec, hnd'⟩ | ⟨s', heq, hsub⟩
    · simp only [scrape_query, heq]
      refine ⟨s', hsub, rfl, ?_, ?_⟩
      · rw [List.map_append]
        rw [List.nodup_append]
        refine ⟨hnd, hnd', ?_⟩
        intro k hk1 hk2
        rw [List.mem_map] at hk1 hk2
        obtain ⟨r1, hr1, hkey1⟩ := hk1
        obtain ⟨r2, hr2, hkey2⟩ := hk2
        obtain ⟨n1, ha1, _, ha3⟩ := hmem r1 hr1
        obtain ⟨n2, hb1, _, _, hb4⟩ := hrec r2 hr2
        rw [ha1] at hkey1
        rw [hb1] at hkey2
        have : n1 = n2 := by
          have h12 : Except.ok (ε := Unit) n1 = Except.ok n2 :=
            hkey1.trans hkey2.symm
          exact Except.ok.inj h12
        exact hb4 (this ▸ ha3)
      · intro r hr
        rcases List.mem_append.mp hr with hr | hr
        · obtain ⟨n, h1, h2, h3⟩ := hmem r hr
          exact ⟨n, h1, h2, hsub n h3⟩
        · obtain ⟨n, h1, h2, h3, _⟩ := hrec r hr
          exact ⟨n, h1, h2, h3⟩
    · simp only [scrape_query, heq]
      refine ⟨s', hsub, rfl, ?_⟩
      simp only [List.append_nil]
      refine ⟨hnd, ?_⟩
      intro r hr
      obtain ⟨n, h1, h2, h3⟩ := hmem r hr
      exact ⟨n, h1, h2, hsub n h3⟩

/-- Carrying the batch invariant through the page loop: the invariant
holds for the accumulated batch and registry after any list of pages. -/
theorem collect_pages_inv (uid : PyStr → PyStr)
    (env : PyStr → Nat → ListingResponse) (q : PyStr) :
    ∀ (ps : List Nat) (b : List CandidateRecord) (s : List PyStr)
      (f : List (PyStr × Nat)), batchInv uid b s →
      batchInv uid (collect_pages uid env q ps (b, s, f)).1
        (collect_pages uid env q ps (b, s, f)).2.1 := by
  intro ps
  induction ps with
  | nil => intro b s f h; exact h
  | cons p ps ih =>
    intro b s f h
    obtain ⟨s', _, hopt, hinv⟩ :=
      scrape_query_preserves_inv uid q (env q p) b s h
    simp only [collect_pages, hopt]
    exact ih _ _ _ hinv

/-- Carrying the batch invariant through the query loop. -/
theorem collect_queries_inv (uid : PyStr → PyStr)
    (env : PyStr → Nat → ListingResponse) :
    ∀ (qs : List PyStr) (b : List CandidateRecord) (s : List PyStr)
      (f : List (PyStr × Nat)), batchInv uid b s →
      batchInv uid (collect_queries uid env qs (b, s, f)).1
        (collect_queries uid env qs (b, s, f)).2.1 := by
  intro qs
  induction qs with
  | nil => intro b s f h; exact h
  | cons q qs ih =>
    intro b s f h
    simp only [collect_queries]
    rcases hc : collect_pages uid env q (List.range' 1 10) (b, s, f) with
      ⟨b', s', f'⟩
    have := collect_pages_inv uid env q (List.range' 1 10) b s f h
    rw [hc] at this
    exact ih b' s' f' this

/-- The harvest batch of a full run satisfies the batch invariant with
respect to the final shared registry. -/
theorem harvestBatch_inv (uid : PyStr → PyStr)
    (env : PyStr → Nat → ListingResponse) (queries : List PyStr) :
    batchInv uid (harvestBatch uid env queries)
      (collect_queries uid env queries ([], [], [])).2.1 :=
  collect_queries_inv uid env queries [] [] []
    ⟨List.nodup_nil, by simp⟩

/-- C1.  Within one orchestrator run — any queries, any listing responses
— no two records of the produced batch share a `recordId`: each record's
canonical URL was checked against and added to the one `seen_urls`
registry shared across all pages and queries, so the canonical URLs are
pairwise distinct, and the `unique_id`s (digests of those canonical URLs)
are pairwise distinct for every injective digest function. -/
theorem c1_no_duplicate_record_ids (uid : PyStr → PyStr)
    (env : PyStr → Nat → ListingResponse) (queries : List PyStr)
    (hinj : Function.Injective uid) :
    ((harvestBatch uid env queries).map (fun r => r.unique_id)).Nodup := by
  obtain ⟨hnd, hmem⟩ := harvestBatch_inv uid env queries
  have hbatch : (harvestBatch uid env queries).Nodup :=
    List.Nodup.of_map _ hnd
  have hkeyinj := List.inj_on_of_nodup_map hnd
  refine List.Nodup.map_on ?_ hbatch
  intro r1 h1 r2 h2 hid
  obtain ⟨n1, ha1, ha2, _⟩ := hmem r1 h1
  obtain ⟨n2, hb1, hb2, _⟩ := hmem r2 h2
  have hn : n1 = n2 := hinj ((ha2 ▸ hb2 ▸ hid : uid n1 = uid n2))
  exact hkeyinj h1 h2 (by rw [ha1, hb1, hn])

/-- Witness for C1: the identity digest is injective; a run whose pages
repeat the same two entries produces a two-record batch with distinct
record ids. -/
theorem c1_no_duplicate_record_ids_witness :
    (harvestBatch (fun s => s)
      (fun _ p => if p ≤ 2 then ListingResponse.listing
        [⟨pys "cat", pys "http://x/", []⟩, ⟨pys "cat", pys "http://y/", []⟩]
       else ListingResponse.failure) [pys "cat"]).length = 2 ∧
    ((harvestBatch (fun s => s)
      (fun _ p => if p ≤ 2 then ListingResponse.listing
        [⟨pys "cat", pys "http://x/", []⟩, ⟨pys "cat", pys "http://y/", []⟩]
       else ListingResponse.failure) [pys "cat"]).map
      (fun r => r.unique_id)).Nodup :=
  ⟨by decide,
   c1_no_duplicate_record_ids (fun s => s) _ [pys "cat"] (fun _ _ h => h)⟩

/-! ## Persistence failure does not abort the run (claim C9) -/

/-- Reduction of a successful `Except` bind (the do-notation sugar). -/
theorem except_ok_bind {ε α β : Type} (a : α) (f : α → Except ε β) :
    ((Except.ok a : Except ε α) >>= f) = f a := rfl

/-- Reduction of a failed `Except` bind. -/
theorem except_error_bind {ε α β : Type} (e : ε) (f : α → Except ε β) :
    ((Except.error e : Except ε α) >>= f) = Except.error e := rfl

/-- `pure` for `Except` is `Except.ok`. -/
theorem except_pure_eq {ε α : Type} (a : α) :
    (pure a : Except ε α) = Except.ok a := rfl

/-- `save_to_csv_rows` succeeds on any batch whose URLs all canonicalize
successfully (as the collection phase guarantees). -/
theorem save_to_csv_rows_ok :
    ∀ (l : List CandidateRecord),
      (∀ r ∈ l, ∃ n, normalize_url r.url = Except.ok n) →
      ∀ seen, ∃ rows, save_to_csv_rows l seen = Except.ok rows := by
  intro l
  induction l with
  | nil => intro _ seen; exact ⟨[], rfl⟩
  | cons r rest ih =>
    intro h seen
    obtain ⟨n, hn⟩ := h r (List.mem_cons_self r rest)
    have hrest := fun r hr => h r (List.mem_cons_of_mem _ hr)
    simp only [save_to_csv_rows, hn, except_ok_bind]
    by_cases hmem : n ∈ seen
    · simp only [hmem, if_pos]
      exact ih hrest seen
    · simp only [hmem, if_neg]
      obtain ⟨rows, hrows⟩ := ih hrest (n :: seen)
      refine ⟨r :: rows, ?_⟩
      simp [hrows, except_ok_bind]

/-- C9.  A batch-upsert failure is caught: the transaction is rolled back
and the run still proceeds to the export phase and launches the content
fetch for every record of the full fetched batch — the failing-database
run returns the same trace as the successful-database run except for the
recorded persistence outcome. -/
theorem c9_db_failure_does_not_abort_run (uid : PyStr → PyStr)
    (env : PyStr → Nat → ListingResponse) (queries : List PyStr) :
    ∃ t : RunTrace,
      scrape_multiple_queries uid env DbOutcome.fail queries = Except.ok t ∧
      t.db = DbResult.rolledBack ∧
      t.batch = harvestBatch uid env queries ∧
      t.contentTasks = (harvestBatch uid env queries).map
        (fun r => (r.url, r.unique_id)) ∧
      scrape_multiple_queries uid env DbOutcome.ok queries =
        Except.ok { t with
          db := DbResult.committed (harvestBatch uid env queries) } := by
  rcases hc : collect_queries uid env queries ([], [], []) with ⟨b, s, f⟩
  have hbatch : harvestBatch uid env queries = b := by
    rw [harvestBatch, hc]
  have hinv := harvestBatch_inv uid env queries
  rw [hbatch] at hinv
  obtain ⟨-, hmem⟩ := hinv
  obtain ⟨rows, hrows⟩ := save_to_csv_rows_ok b
    (fun r hr => (hmem r hr).imp fun n hn => hn.1) []
  refine ⟨⟨b, f, DbResult.rolledBack, rows, b.map fun r => (r.url, r.unique_id)⟩,
    ?_, rfl, hbatch.symm, by rw [hbatch], ?_⟩
  · simp only [scrape_multiple_queries, hc, hrows, except_ok_bind]
    rfl
  · simp only [scrape_multiple_queries, hc, hrows, except_ok_bind, hbatch]
    rfl

/-! ## The per-entry append condition (claim C8) -/

/-- Is an `Except` value a success? -/
def exceptIsOk {ε α : Type} : Except ε α → Bool
  | .ok _ => true
  | .error _ => false

/-- Decidable equality for `Except` (not derived in core). -/
instance exceptDecEq {ε α : Type} [DecidableEq ε] [DecidableEq α] :
    DecidableEq (Except ε α) := fun a b =>
  match a, b with
  | .ok x, .ok y =>
    if h : x = y then isTrue (by rw [h]) else isFalse (by simp [h])
  | .error x, .error y =>
    if h : x = y then isTrue (by rw [h]) else isFalse (by simp [h])
  | .ok _, .error _ => isFalse (by simp)
  | .error _, .ok _ => isFalse (by simp)

/-- Modelled from the spec (§4.4 `SearchResultFetcher`): for each entry,
*skip* it if the title or url is empty, or the entry is judged irrelevant,
or its canonical URL is already in the registry; otherwise add the
canonical URL to the registry and append a `CandidateRecord`.  The spec
treats canonicalization as total (§4.1); on the code's canonicalizer an
entry URL can raise instead — such entries cannot occur under the
refinement hypothesis below, and are skipped here. -/
def fetchPage_spec (uid : PyStr → PyStr) (query : PyStr) :
    List Entry → List PyStr → List CandidateRecord × List PyStr
  | [], registry => ([], registry)
  | e :: rest, registry =>
    if e.title = [] ∨ e.url = [] ∨
        ¬ is_relevant_result e.title e.snippet query = true then
      fetchPage_spec uid query rest registry
    else
      match normalize_url e.url with
      | .error _ => fetchPage_spec uid query rest registry
      | .ok n =>
        if n ∈ registry then fetchPage_spec uid query rest registry
        else
          let (rs, reg') := fetchPage_spec uid query rest (n :: registry)
          (⟨query, e.title, e.url, e.snippet, uid n⟩ :: rs, reg')

/-- The filter on `scraper.py` line 92 agrees with the spec's skip
condition. -/
theorem entryPasses_iff (q : PyStr) (e : Entry) :
    entryPasses q e = true ↔
      ¬ (e.title = [] ∨ e.url = [] ∨
          ¬ is_relevant_result e.title e.snippet q = true) := by
  simp [entryPasses]

/-- When no relevant non-empty entry of the page makes the canonicalizer
raise, the entry loop completes and computes exactly the spec's
`fetchPage`. -/
theorem scrape_query_loop_eq_spec (uid : PyStr → PyStr) (q : PyStr) :
    ∀ (es : List Entry) (s : List PyStr),
      (∀ e ∈ es, entryPasses q e = true →
        exceptIsOk (normalize_url e.url) = true) →
      scrape_query_loop uid q es (some s) =
        .ok ((fetchPage_spec uid q es s).1,
          some (fetchPage_spec uid q es s).2) := by
  intro es
  induction es with
  | nil => intro s _; rfl
  | cons e rest ih =>
    intro s h
    have hrest := fun e' he' => h e' (List.mem_cons_of_mem _ he')
    simp only [scrape_query_loop, fetchPage_spec]
    by_cases hp : entryPasses q e = true
    · have hskip := (entryPasses_iff q e).mp hp
      simp only [hskip, if_neg]
      cases hn : normalize_url e.url with
      | error u =>
        have := h e (List.mem_cons_self e rest) hp
        rw [hn] at this
        exact absurd this (by simp [exceptIsOk])
      | ok n =>
        simp only [hp, if_pos]
        by_cases hmem : n ∈ s
        · simp only [hmem, if_pos]
          exact ih s hrest
        · simp only [hmem, if_neg]
          rw [ih (n :: s) hrest]
          simp
    · have hskip : e.title = [] ∨ e.url = [] ∨
          ¬ is_relevant_result e.title e.snippet q = true := by
        by_contra hc
        exact hp ((entryPasses_iff q e).mpr hc)
      simp only [hp, if_neg, hskip, if_pos]
      exact ih s hrest

/-- C8 (amended).  Provided the canonicalizer raises on no relevant
non-empty entry of the page, `scrape_query` appends a candidate record
for an entry if and only if the spec's conditions hold — it computes
exactly the spec's `fetchPage`: skip on empty title/url, irrelevance, or
an already-registered canonical URL; append and register otherwise.
(Without the proviso the page is aborted: see the counterexample.) -/
theorem c8_amended_append_iff_spec (uid : PyStr → PyStr) (q : PyStr)
    (es : List Entry) (s : List PyStr)
    (h : ∀ e ∈ es, entryPasses q e = true →
      exceptIsOk (normalize_url e.url) = true) :
    scrape_query uid q (ListingResponse.listing es) (some s) =
      ((fetchPage_spec uid q es s).1, some (fetchPage_spec uid q es s).2) := by
  rw [scrape_query, scrape_query_loop_eq_spec uid q es s h]

/-- Witness for C8 (amended): a page with one appendable entry, one
empty-title entry, one duplicate and one irrelevant entry produces exactly
the spec's record list. -/
theorem c8_amended_witness :
    scrape_query (fun s => s) (pys "cat")
      (ListingResponse.listing
        [⟨pys "cat", pys "http://x/", []⟩,
         ⟨[], pys "http://y/", []⟩,
         ⟨pys "cats", pys "http://x", []⟩,
         ⟨pys "dog", pys "http://z/", pys "dogs"⟩]) (some []) =
      ([⟨pys "cat", pys "cat", pys "http://x/", [], pys "http://x"⟩],
       some [pys "http://x"]) :=
  (c8_amended_append_iff_spec (fun s => s) (pys "cat") _ [] (by decide)).trans
    (by decide)

/-- Counterexample to C8 as stated: the first entry satisfies every append
condition (non-empty title and url, relevant, fresh canonical URL), but
because a later entry's URL has an unbalanced bracket in its authority,
the canonicalizer raises, the whole page is swallowed to `[]` — the good
entry is not appended — while the registry keeps its canonical URL. -/
theorem c8_counterexample :
    entryPasses (pys "cat") ⟨pys "cat", pys "http://x/", []⟩ = true ∧
    normalize_url (pys "http://x/") = Except.ok (pys "http://x") ∧
    ¬ pys "http://x" ∈ ([] : List PyStr) ∧
    scrape_query (fun s => s) (pys "cat")
      (ListingResponse.listing
        [⟨pys "cat", pys "http://x/", []⟩,
         ⟨pys "cat", pys "http://[x/", []⟩]) (some []) =
      ([], some [pys "http://x"]) := by
  decide

/-! ## Order theory for the query-parameter sort (claims C4, C3)

Python's `sorted` on the `(key, values)` items of `parse_qs` compares
tuples lexicographically.  To reason about it we prove that the comparison
`qsItemLe` is a linear order (total, transitive, antisymmetric) and that
the insertion sort modelling `sorted` is sorted and a permutation. -/

@[simp] theorem strLt_nil_nil : strLt [] [] = false := rfl

@[simp] theorem strLt_nil_cons (b : Char) (bs : PyStr) :
    strLt [] (b :: bs) = true := rfl

@[simp] theorem strLt_cons_nil (a : Char) (as_ : PyStr) :
    strLt (a :: as_) [] = false := rfl

theorem strLt_cons_cons (a b : Char) (as_ bs : PyStr) :
    strLt (a :: as_) (b :: bs) =
      if a = b then strLt as_ bs else decide (a < b) := rfl

@[simp] theorem listStrLt_nil_nil : listStrLt [] [] = false := rfl

@[simp] theorem listStrLt_nil_cons (b : PyStr) (bs : List PyStr) :
    listStrLt [] (b :: bs) = true := rfl

@[simp] theorem listStrLt_cons_nil (a : PyStr) (as_ : List PyStr) :
    listStrLt (a :: as_) [] = false := rfl

theorem listStrLt_cons_cons (a b : PyStr) (as_ bs : List PyStr) :
    listStrLt (a :: as_) (b :: bs) =
      if a = b then listStrLt as_ bs else strLt a b := rfl

theorem strLt_asymm : ∀ a b : PyStr, strLt a b = true → strLt b a = false
  | [], [] => by simp
  | [], _ :: _ => by simp
  | _ :: _, [] => by simp
  | a :: as_, b :: bs => by
    rw [strLt_cons_cons, strLt_cons_cons]
    by_cases hab : a = b
    · subst hab
      rw [if_pos rfl, if_pos rfl]
      exact strLt_asymm as_ bs
    · have hba : ¬ b = a := fun h => hab h.symm
      rw [if_neg hab, if_neg hba]
      simp only [decide_eq_true_eq, decide_eq_false_iff_not]
      exact fun h => not_lt_of_lt h

theorem strLt_connex : ∀ a b : PyStr,
    strLt a b = false → strLt b a = false → a = b
  | [], [] => fun _ _ => rfl
  | [], b :: bs => by simp
  | _ :: _, [] => by simp
  | a :: as_, b :: bs => by
    rw [strLt_cons_cons, strLt_cons_cons]
    by_cases hab : a = b
    · subst hab
      rw [if_pos rfl, if_pos rfl]
      intro h1 h2
      rw [strLt_connex as_ bs h1 h2]
    · have hba : ¬ b = a := fun h => hab h.symm
      rw [if_neg hab, if_neg hba]
      simp only [decide_eq_false_iff_not]
      intro h1 h2
      exact absurd (le_antisymm (le_of_not_lt h2) (le_of_not_lt h1)) hab

theorem strLt_trans : ∀ a b c : PyStr,
    strLt a b = true → strLt b c = true → strLt a c = true
  | _, [], [] => by simp
  | _, _ :: _, [] => by simp
  | [], [], _ :: _ => by simp
  | [], _ :: _, _ :: _ => by simp
  | _ :: _, [], _ :: _ => by simp
  | a :: as_, b :: bs, c :: cs => by
    rw [strLt_cons_cons, strLt_cons_cons, strLt_cons_cons]
    by_cases hab : a = b
    · subst hab
      by_cases hac : a = c
      · subst hac
        rw [if_pos rfl, if_pos rfl, if_pos rfl]
        exact strLt_trans as_ bs cs
      · rw [if_pos rfl, if_neg hac, if_neg hac]
        exact fun _ h => h
    · by_cases hbc : b = c
      · subst hbc
        rw [if_neg hab, if_pos rfl, if_neg hab]
        exact fun h _ => h
      · by_cases hac : a = c
        · subst hac
          have hba : ¬ b = a := fun h => hab h.symm
          rw [if_neg hab, if_neg hba, if_pos rfl]
          intro h1 h2
          exact absurd (lt_trans (of_decide_eq_true h1) (of_decide_eq_true h2))
            (lt_irrefl a)
        · rw [if_neg hab, if_neg hbc, if_neg hac]
          simp only [decide_eq_true_eq]
          exact fun h1 h2 => lt_trans h1 h2

theorem listStrLt_asymm : ∀ u v : List PyStr,
    listStrLt u v = true → listStrLt v u = false
  | [], [] => by simp
  | [], _ :: _ => by simp
  | _ :: _, [] => by simp
  | a :: as_, b :: bs => by
    rw [listStrLt_cons_cons, listStrLt_cons_cons]
    by_cases hab : a = b
    · subst hab
      rw [if_pos rfl, if_pos rfl]
      exact listStrLt_asymm as_ bs
    · have hba : ¬ b = a := fun h => hab h.symm
      rw [if_neg hab, if_neg hba]
      exact strLt_asymm a b

theorem listStrLt_connex : ∀ u v : List PyStr,
    listStrLt u v = false → listStrLt v u = false → u = v
  | [], [] => fun _ _ => rfl
  | [], _ :: _ => by simp
  | _ :: _, [] => by simp
  | a :: as_, b :: bs => by
    rw [listStrLt_cons_cons, listStrLt_cons_cons]
    by_cases hab : a = b
    · subst hab
      rw [if_pos rfl, if_pos rfl]
      intro h1 h2
      rw [listStrLt_connex as_ bs h1 h2]
    · have hba : ¬ b = a := fun h => hab h.symm
      rw [if_neg hab, if_neg hba]
      intro h1 h2
      exact absurd (strLt_connex a b h1 h2) hab

theorem listStrLt_trans : ∀ u v w : List PyStr,
    listStrLt u v = true → listStrLt v w = true → listStrLt u w = true
  | _, [], [] => by simp
  | _, _ :: _, [] => by simp
  | [], [], _ :: _ => by simp
  | [], _ :: _, _ :: _ => by simp
  | _ :: _, [], _ :: _ => by simp
  | a :: as_, b :: bs, c :: cs => by
    rw [listStrLt_cons_cons, listStrLt_cons_cons, listStrLt_cons_cons]
    by_cases hab : a = b
    · subst hab
      by_cases hac : a = c
      · subst hac
        rw [if_pos rfl, if_pos rfl, if_pos rfl]
        exact listStrLt_trans as_ bs cs
      · rw [if_pos rfl, if_neg hac, if_neg hac]
        exact fun _ h => h
    · by_cases hbc : b = c
      · subst hbc
        rw [if_neg hab, if_pos rfl, if_neg hab]
        exact fun h _ => h
      · by_cases hac : a = c
        · subst hac
          have hba : ¬ b = a := fun h => hab h.symm
          rw [if_neg hab, if_neg hba, if_pos rfl]
          intro h1 h2
          rw [strLt_asymm a b h1] at h2
          exact absurd h2 (by simp)
        · rw [if_neg hab, if_neg hbc, if_neg hac]
          exact strLt_trans a b c

theorem qsItemLe_total (x y : PyStr × List PyStr) :
    qsItemLe x y = true ∨ qsItemLe y x = true := by
  simp only [qsItemLe, Bool.or_eq_true, decide_eq_true_eq]
  by_cases h1 : strLt x.1 y.1 = true
  · left; left; exact h1
  · by_cases h2 : strLt y.1 x.1 = true
    · right; left; exact h2
    · have hk : x.1 = y.1 :=
        strLt_connex x.1 y.1 (by simpa using h1) (by simpa using h2)
      by_cases h3 : listStrLt x.2 y.2 = true
      · left; right; exact ⟨hk, Or.inl h3⟩
      · by_cases h4 : listStrLt y.2 x.2 = true
        · right; right; exact ⟨hk.symm, Or.inl h4⟩
        · left; right
          exact ⟨hk, Or.inr (listStrLt_connex x.2 y.2
            (by simpa using h3) (by simpa using h4))⟩

theorem qsItemLe_trans (x y z : PyStr × List PyStr)
    (hxy : qsItemLe x y = true) (hyz : qsItemLe y z = true) :
    qsItemLe x z = true := by
  simp only [qsItemLe, Bool.or_eq_true, decide_eq_true_eq] at hxy hyz ⊢
  rcases hxy with h1 | ⟨hk1, h1⟩
  · rcases hyz with h2 | ⟨hk2, _⟩
    · exact Or.inl (strLt_trans _ _ _ h1 h2)
    · exact Or.inl (hk2 ▸ h1)
  · rcases hyz with h2 | ⟨hk2, h2⟩
    · exact Or.inl (hk1 ▸ h2)
    · refine Or.inr ⟨hk1.trans hk2, ?_⟩
      rcases h1 with h1 | h1
      · rcases h2 with h2 | h2
        · exact Or.inl (listStrLt_trans _ _ _ h1 h2)
        · exact Or.inl (h2 ▸ h1)
      · rcases h2 with h2 | h2
        · exact Or.inl (h1 ▸ h2)
        · exact Or.inr (h1.trans h2)

theorem qsItemLe_antisymm (x y : PyStr × List PyStr)
    (hxy : qsItemLe x y = true) (hyx : qsItemLe y x = true) : x = y := by
  simp only [qsItemLe, Bool.or_eq_true, decide_eq_true_eq] at hxy hyx
  rcases hxy with h1 | ⟨hk1, h1⟩
  · rcases hyx with h2 | ⟨hk2, _⟩
    · have := strLt_asymm _ _ h1
      rw [this] at h2
      exact absurd h2 (by simp)
    · rw [hk2] at h1
      have := strLt_asymm _ _ h1
      rw [h1] at this
      exact absurd this (by simp)
  · rcases hyx with h2 | ⟨hk2, h2⟩
    · rw [hk1] at h2
      have := strLt_asymm _ _ h2
      rw [h2] at this
      exact absurd this (by simp)
    · rcases h1 with h1 | h1
      · rcases h2 with h2 | h2
        · have := listStrLt_asymm _ _ h1
          rw [this] at h2
          exact absurd h2 (by simp)
        · rw [h2] at h1
          have := listStrLt_asymm _ _ h1
          rw [h1] at this
          exact absurd this (by simp)
      · exact Prod.ext hk1 h1

theorem insertLe_perm {α : Type} (le : α → α → Bool) (x : α) :
    ∀ l : List α, (insertLe le x l).Perm (x :: l)
  | [] => List.Perm.refl _
  | y :: ys => by
    simp only [insertLe]
    by_cases h : le y x = true
    · rw [if_pos h]
      exact ((insertLe_perm le x ys).cons y).trans (List.Perm.swap x y ys)
    · rw [if_neg h]

theorem pySorted_perm_aux {α : Type} (le : α → α → Bool) :
    ∀ (l acc : List α),
      (List.foldl (fun acc x => insertLe le x acc) acc l).Perm (acc ++ l)
  | [], acc => by simp
  | x :: xs, acc => by
    simp only [List.foldl_cons]
    refine (pySorted_perm_aux le xs (insertLe le x acc)).trans ?_
    refine (((insertLe_perm le x acc).append_right xs).trans ?_)
    exact List.perm_middle.symm.trans (List.Perm.refl _) |>.symm.symm

/-- `pySorted` permutes its input. -/
theorem pySorted_perm {α : Type} (le : α → α → Bool) (l : List α) :
    (pySorted le l).Perm l := by
  simpa using pySorted_perm_aux le l []

theorem insertLe_sorted {α : Type} (le : α → α → Bool)
    (htot : ∀ a b, le a b = true ∨ le b a = true)
    (htrans : ∀ a b c, le a b = true → le b c = true → le a c = true)
    (x : α) :
    ∀ l : List α, l.Pairwise (fun a b => le a b = true) →
      (insertLe le x l).Pairwise (fun a b => le a b = true)
  | [], _ => List.pairwise_singleton _ x
  | y :: ys, h => by
    obtain ⟨hy, hys⟩ := List.pairwise_cons.mp h
    simp only [insertLe]
    by_cases hle : le y x = true
    · rw [if_pos hle]
      refine List.pairwise_cons.mpr ⟨?_, insertLe_sorted le htot htrans x ys hys⟩
      intro z hz
      rcases List.mem_cons.mp ((insertLe_perm le x ys).mem_iff.mp hz) with
        hz | hz
      · exact hz ▸ hle
      · exact hy z hz
    · rw [if_neg hle]
      have hxy : le x y = true := (htot x y).resolve_right (by
        intro hc; exact hle hc)
      refine List.pairwise_cons.mpr ⟨?_, h⟩
      intro z hz
      rcases List.mem_cons.mp hz with hz | hz
      · exact hz ▸ hxy
      · exact htrans x y z hxy (hy z hz)

/-- `pySorted` sorts (for a total, transitive comparison). -/
theorem pySorted_sorted {α : Type} (le : α → α → Bool)
    (htot : ∀ a b, le a b = true ∨ le b a = true)
    (htrans : ∀ a b c, le a b = true → le b c = true → le a c = true)
    (l : List α) :
    (pySorted le l).Pairwise (fun a b => le a b = true) := by
  suffices h : ∀ (l acc : List α),
      acc.Pairwise (fun a b => le a b = true) →
      (List.foldl (fun acc x => insertLe le x acc) acc l).Pairwise
        (fun a b => le a b = true) from
    h l [] List.Pairwise.nil
  intro l
  induction l with
  | nil => intro acc h; exact h
  | cons x xs ih =>
    intro acc h
    exact ih (insertLe le x acc) (insertLe_sorted le htot htrans x acc h)

/-- Two permuted lists have the same `pySorted` image when the comparison
is a linear order. -/
theorem pySorted_eq_of_perm {α : Type} (le : α → α → Bool)
    (htot : ∀ a b, le a b = true ∨ le b a = true)
    (htrans : ∀ a b c, le a b = true → le b c = true → le a c = true)
    (hanti : ∀ a b, le a b = true → le b a = true → a = b)
    (l1 l2 : List α) (hp : l1.Perm l2) :
    pySorted le l1 = pySorted le l2 := by
  exact @List.eq_of_perm_of_sorted α (fun a b => le a b = true) ⟨hanti⟩ _ _
    ((pySorted_perm le l1).trans (hp.trans (pySorted_perm le l2).symm))
    (pySorted_sorted le htot htrans l1) (pySorted_sorted le htot htrans l2)

/-! ## Character-level lemmas for the canonicalizer -/

theorem char_le_iff (a b : Char) : a ≤ b ↔ a.toNat ≤ b.toNat := Iff.rfl

theorem char_eq_of_toNat {a b : Char} (h : a.toNat = b.toNat) : a = b :=
  Char.eq_of_val_eq (UInt32.toNat.inj h)

theorem char_toNat_ofNat (n : Nat) (h : n.isValidChar) :
    (Char.ofNat n).toNat = n := by
  unfold Char.ofNat
  rw [dif_pos h]
  rfl

/-- The code-point view of the ASCII lower-casing map. -/
theorem pyLowerChar_toNat (c : Char) :
    (pyLowerChar c).toNat =
      if 65 ≤ c.toNat ∧ c.toNat ≤ 90 then c.toNat + 32 else c.toNat := by
  rw [pyLowerChar]
  by_cases h : 'A' ≤ c ∧ c ≤ 'Z'
  · obtain ⟨h1, h2⟩ := h
    rw [char_le_iff] at h1 h2
    have hA : ('A').toNat = 65 := rfl
    have hZ : ('Z').toNat = 90 := rfl
    rw [hA] at h1
    rw [hZ] at h2
    rw [if_pos ⟨h1, h2⟩, if_pos ⟨h1, h2⟩, char_toNat_ofNat]
    exact Or.inl (by omega)
  · have h' : ¬ (65 ≤ c.toNat ∧ c.toNat ≤ 90) := by
      intro hc
      exact h ⟨(char_le_iff _ _).mpr hc.1, (char_le_iff _ _).mpr hc.2⟩
    rw [if_neg h, if_neg h']

/-- Lower-casing is idempotent (the image `a`-`z` is outside `A`-`Z`). -/
theorem pyLowerChar_idem (c : Char) :
    pyLowerChar (pyLowerChar c) = pyLowerChar c := by
  apply char_eq_of_toNat
  rw [pyLowerChar_toNat, pyLowerChar_toNat]
  by_cases h : 65 ≤ c.toNat ∧ c.toNat ≤ 90
  · rw [if_pos h, if_neg (by omega)]
  · rw [if_neg h, if_neg h]

theorem pyLower_idem (s : PyStr) : pyLower (pyLower s) = pyLower s := by
  simp only [pyLower, List.map_map]
  exact List.map_congr_left fun c _ => pyLowerChar_idem c

/-- A character outside both ASCII letter ranges is a fixed point of
lower-casing, and nothing else maps to it. -/
theorem pyLowerChar_eq_iff {d : Char}
    (hd : ¬ (65 ≤ d.toNat ∧ d.toNat ≤ 90) ∧ ¬ (97 ≤ d.toNat ∧ d.toNat ≤ 122))
    (c : Char) : pyLowerChar c = d ↔ c = d := by
  constructor
  · intro h
    have := congrArg Char.toNat h
    rw [pyLowerChar_toNat] at this
    by_cases hc : 65 ≤ c.toNat ∧ c.toNat ≤ 90
    · rw [if_pos hc] at this
      exact absurd this (by intro hh; exact hd.2 (by omega))
    · rw [if_neg hc] at this
      exact char_eq_of_toNat this
  · intro h
    subst h
    apply char_eq_of_toNat
    rw [pyLowerChar_toNat, if_neg hd.1]

/-- Membership of a non-letter character is unchanged by lower-casing. -/
theorem mem_pyLower_iff {d : Char}
    (hd : ¬ (65 ≤ d.toNat ∧ d.toNat ≤ 90) ∧ ¬ (97 ≤ d.toNat ∧ d.toNat ≤ 122))
    (s : PyStr) : d ∈ pyLower s ↔ d ∈ s := by
  rw [pyLower, List.mem_map]
  constructor
  · rintro ⟨c, hc, hcd⟩
    rwa [(pyLowerChar_eq_iff hd c).mp hcd] at hc
  · intro h
    exact ⟨d, h, (pyLowerChar_eq_iff hd d).mpr rfl⟩

/-! ## Split-function lemmas -/

theorem dropWhile_dropWhile {α : Type} (p : α → Bool) :
    ∀ l : List α, (l.dropWhile p).dropWhile p = l.dropWhile p
  | [] => rfl
  | x :: l => by
    rw [List.dropWhile_cons]
    by_cases h : p x = true
    · rw [if_pos h]
      exact dropWhile_dropWhile p l
    · rw [if_neg h, List.dropWhile_cons, if_neg h]

theorem dropWhile_head_false {α : Type} (p : α → Bool) :
    ∀ {l : List α} {x : α} {xs : List α},
      l.dropWhile p = x :: xs → p x = false := by
  intro l
  induction l with
  | nil => intro x xs h; exact absurd h (by simp)
  | cons a l ih =>
    intro x xs h
    rw [List.dropWhile_cons] at h
    by_cases ha : p a = true
    · rw [if_pos ha] at h
      exact ih h
    · rw [if_neg ha] at h
      cases h
      simpa using ha

/-- One-step unfolding of `splitOnceChar`. -/
theorem splitOnceChar_cons (c x : Char) (s : PyStr) :
    splitOnceChar c (x :: s) =
      if x = c then some ([], s)
      else (splitOnceChar c s).map (fun ab => (x :: ab.1, ab.2)) := by
  rw [splitOnceChar, splitOnceChar]
  by_cases hx : x = c
  · subst hx
    rw [if_pos rfl]
    simp [List.dropWhile_cons, List.takeWhile_cons]
  · rw [if_neg hx]
    have hpx : (decide ¬ x = c) = true := by simp [hx]
    simp only [List.dropWhile_cons, List.takeWhile_cons, ne_eq, hpx, if_pos,
      decide_not]
    rcases hdw : s.dropWhile (fun y => !decide (y = c)) with _ | ⟨y, ys⟩ <;>
      simp [hx]

theorem splitOnceChar_none {c : Char} : ∀ {s : PyStr},
    ¬ c ∈ s → splitOnceChar c s = none := by
  intro s
  induction s with
  | nil => intro _; rfl
  | cons x s ih =>
    intro h
    have hx : ¬ x = c := fun hc => h (hc ▸ List.mem_cons_self x s)
    rw [splitOnceChar_cons, if_neg hx,
      ih (fun hc => h (List.mem_cons_of_mem x hc))]
    rfl

theorem splitOnceChar_append (c : Char) : ∀ (s t : PyStr), ¬ c ∈ s →
    splitOnceChar c (s ++ c :: t) = some (s, t)
  | [], t, _ => by
    rw [List.nil_append, splitOnceChar_cons, if_pos rfl]
  | a :: s, t, h => by
    have ha : ¬ a = c := fun hac => h (hac ▸ List.mem_cons_self a s)
    have hs : ¬ c ∈ s := fun hc => h (List.mem_cons_of_mem a hc)
    rw [List.cons_append, splitOnceChar_cons, if_neg ha,
      splitOnceChar_append c s t hs]
    rfl

theorem splitOnceChar_some {c : Char} : ∀ {s a b : PyStr},
    splitOnceChar c s = some (a, b) → s = a ++ c :: b ∧ ¬ c ∈ a := by
  intro s
  induction s with
  | nil => intro a b h; exact absurd h (by simp [splitOnceChar])
  | cons x s ih =>
    intro a b h
    rw [splitOnceChar_cons] at h
    by_cases hx : x = c
    · rw [if_pos hx] at h
      simp only [Option.some.injEq, Prod.mk.injEq] at h
      obtain ⟨ha, hb⟩ := h
      subst hx; subst hb
      rw [← ha]
      exact ⟨by simp, by simp⟩
    · rw [if_neg hx] at h
      rcases hsp : splitOnceChar c s with _ | ⟨a2, b2⟩
      · rw [hsp] at h; exact absurd h (by simp)
      · rw [hsp] at h
        simp only [Option.map_some', Option.some.injEq, Prod.mk.injEq] at h
        obtain ⟨ha, hb⟩ := h
        obtain ⟨hdec, hmem⟩ := ih hsp
        subst hb
        rw [← ha]
        constructor
        · rw [List.cons_append, ← hdec]
        · intro hc
          rcases List.mem_cons.mp hc with hc | hc
          · exact hx hc.symm
          · exact hmem hc

theorem rstripSlash_idem (s : PyStr) :
    rstripSlash (rstripSlash s) = rstripSlash s := by
  rw [rstripSlash, rstripSlash, List.reverse_reverse, dropWhile_dropWhile]

/-- Stripping trailing slashes splits the string into the stripped part
and a run of slashes. -/
theorem rstripSlash_append (s : PyStr) :
    ∃ t, s = rstripSlash s ++ t ∧ ∀ x ∈ t, x = '/' := by
  refine ⟨(s.reverse.takeWhile (· = '/')).reverse, ?_, ?_⟩
  · rw [rstripSlash, ← List.reverse_append, List.takeWhile_append_dropWhile,
      List.reverse_reverse]
  · intro x hx
    rw [List.mem_reverse] at hx
    have := List.mem_takeWhile_imp hx
    simpa using this

theorem splitOnceChar_none_iff (c : Char) : ∀ (s : PyStr),
    splitOnceChar c s = none ↔ ¬ c ∈ s
  | [] => by simp [splitOnceChar]
  | x :: s => by
    rw [splitOnceChar_cons]
    by_cases hx : x = c
    · rw [if_pos hx]
      simp [hx]
    · rw [if_neg hx]
      rcases hsp : splitOnceChar c s with _ | ⟨a, b⟩
      · simp only [Option.map_none']
        constructor
        · intro _ hc
          rcases List.mem_cons.mp hc with hc | hc
          · exact hx hc.symm
          · exact ((splitOnceChar_none_iff c s).mp hsp) hc
        · intro _; trivial
      · simp only [Option.map_some']
        constructor
        · intro h; exact absurd h (by simp)
        · intro h
          exfalso
          obtain ⟨hdec, _⟩ := splitOnceChar_some hsp
          exact h (List.mem_cons_of_mem x
            (hdec ▸ List.mem_append_right a (List.mem_cons_self c b)))

/-- Characterization of `splitFragmentQuery`: the path is an initial part
of the input and contains neither `#` nor `?`. -/
theorem splitFragmentQuery_spec (url : PyStr) :
    ∃ t, url = (splitFragmentQuery url).1 ++ t ∧
      ¬ '#' ∈ (splitFragmentQuery url).1 ∧
      ¬ '?' ∈ (splitFragmentQuery url).1 := by
  rcases h1 : splitOnceChar '#' url with _ | ⟨a1, b1⟩
  · have hn1 : ¬ '#' ∈ url := (splitOnceChar_none_iff _ _).mp h1
    rcases h2 : splitOnceChar '?' url with _ | ⟨a2, b2⟩
    · simp only [splitFragmentQuery, h1, h2]
      exact ⟨[], by simp, hn1, (splitOnceChar_none_iff _ _).mp h2⟩
    · obtain ⟨hdec, hmem⟩ := splitOnceChar_some h2
      simp only [splitFragmentQuery, h1, h2]
      refine ⟨'?' :: b2, by simpa using hdec, ?_, hmem⟩
      intro hc
      exact hn1 (hdec ▸ List.mem_append_left _ hc)
  · obtain ⟨hdec1, hmem1⟩ := splitOnceChar_some h1
    rcases h2 : splitOnceChar '?' a1 with _ | ⟨a2, b2⟩
    · simp only [splitFragmentQuery, h1, h2]
      exact ⟨'#' :: b1, by simpa using hdec1, hmem1,
        (splitOnceChar_none_iff _ _).mp h2⟩
    · obtain ⟨hdec2, hmem2⟩ := splitOnceChar_some h2
      simp only [splitFragmentQuery, h1, h2]
      refine ⟨'?' :: b2 ++ '#' :: b1, ?_, ?_, hmem2⟩
      · rw [hdec1, hdec2]
        simp
      · intro hc
        exact hmem1 (hdec2 ▸ List.mem_append_left _ hc)

/-- `splitFragmentQuery` is the identity on a string free of `#` and `?`. -/
theorem splitFragmentQuery_id {url : PyStr}
    (h1 : ¬ '#' ∈ url) (h2 : ¬ '?' ∈ url) :
    splitFragmentQuery url = (url, [], []) := by
  simp only [splitFragmentQuery, splitOnceChar_none h1, splitOnceChar_none h2]

/-- The netloc produced by `_splitnetloc` is delimiter-free, and the rest
starts with a delimiter (or is empty). -/
theorem splitnetloc_spec (rest : PyStr) :
    rest = (splitnetloc rest).1 ++ (splitnetloc rest).2 ∧
    (∀ d ∈ (splitnetloc rest).1, ¬ d = '/' ∧ ¬ d = '?' ∧ ¬ d = '#') ∧
    ((splitnetloc rest).2 = [] ∨ ∃ x xs, (splitnetloc rest).2 = x :: xs ∧
      (x = '/' ∨ x = '?' ∨ x = '#')) := by
  refine ⟨(List.takeWhile_append_dropWhile _ _).symm, ?_, ?_⟩
  · intro d hd
    have := List.mem_takeWhile_imp hd
    simp only [decide_eq_true_eq] at this
    exact ⟨fun h => (h ▸ this).1 rfl, fun h => ((h ▸ this).2).1 rfl,
      fun h => ((h ▸ this).2).2 rfl⟩
  · rcases hdw : (splitnetloc rest).2 with _ | ⟨x, xs⟩
    · exact Or.inl rfl
    · right
      refine ⟨x, xs, rfl, ?_⟩
      have := dropWhile_head_false
        (fun c : Char => decide (¬ c = '/' ∧ ¬ c = '?' ∧ ¬ c = '#')) hdw
      simp only [decide_eq_false_iff_not, not_and_or, not_not] at this
      tauto

/-- Rebuilding: `_splitnetloc` recovers a delimiter-free netloc followed by
a rest that is empty or starts with a delimiter. -/
theorem splitnetloc_append (n r : PyStr)
    (hn : ∀ d ∈ n, ¬ d = '/' ∧ ¬ d = '?' ∧ ¬ d = '#')
    (hr : r = [] ∨ ∃ t, r = '/' :: t) :
    splitnetloc (n ++ r) = (n, r) := by
  have hpos : ∀ d ∈ n, (fun c : Char =>
      decide (¬ c = '/' ∧ ¬ c = '?' ∧ ¬ c = '#')) d = true := by
    intro d hd
    simpa using hn d hd
  rw [splitnetloc, List.takeWhile_append_of_pos hpos,
    List.dropWhile_append_of_pos hpos]
  rcases hr with hr | ⟨t, hr⟩
  · subst hr; simp
  · subst hr
    rw [List.takeWhile_cons, List.dropWhile_cons]
    simp

/-- Characterization of a successful scheme split. -/
theorem schemeSplit_some {url s rest : PyStr}
    (h : schemeSplit url = some (s, rest)) :
    ∃ s0 c0 cs, s = pyLower s0 ∧ url = s0 ++ ':' :: rest ∧ s0 = c0 :: cs ∧
      (c0.toNat < 0x80 ∧ isAsciiAlpha c0 = true) ∧
      s0.all isSchemeChar = true ∧ ¬ ':' ∈ s0 := by
  rw [schemeSplit] at h
  rcases hsp : splitOnceChar ':' url with _ | ⟨before, after⟩
  · simp only [hsp] at h
    exact absurd h (by simp)
  · simp only [hsp] at h
    obtain ⟨hdec, hmem⟩ := splitOnceChar_some hsp
    rcases hb : before with _ | ⟨c0, cs⟩
    · simp only [hb] at h
      exact absurd h (by simp)
    · simp only [hb] at h
      split at h
      · simp only [Option.some.injEq, Prod.mk.injEq] at h
        rename_i hcond
        refine ⟨c0 :: cs, c0, cs, h.1.symm, ?_, rfl, hcond.1, hcond.2,
          hb ▸ hmem⟩
        rw [hdec, hb, h.2]
      · exact absurd h (by simp)

/-- Rebuilding a scheme split. -/
theorem schemeSplit_build (s0 rest : PyStr) (c0 : Char) (cs : PyStr)
    (hs0 : s0 = c0 :: cs) (hc : c0.toNat < 0x80 ∧ isAsciiAlpha c0 = true)
    (hall : s0.all isSchemeChar = true) (hcolon : ¬ ':' ∈ s0) :
    schemeSplit (s0 ++ ':' :: rest) = some (pyLower s0, rest) := by
  subst hs0
  rw [schemeSplit]
  simp only [splitOnceChar_append ':' (c0 :: cs) rest hcolon]
  rw [if_pos ⟨hc, hall⟩]

/-- A string starting with a non-alphabetic character has no scheme. -/
theorem schemeSplit_none_head (c : Char) (l : PyStr)
    (hc : ¬ (c.toNat < 0x80 ∧ isAsciiAlpha c = true)) :
    schemeSplit (c :: l) = none := by
  rw [schemeSplit, splitOnceChar_cons]
  by_cases hcc : c = ':'
  · simp only [if_pos hcc]
  · simp only [if_neg hcc]
    rcases hsp : splitOnceChar ':' l with _ | ⟨a, b⟩
    · simp
    · simp only [Option.map_some']
      rw [if_neg fun hcon => hc hcon.1]

/-- A prefix of a string with no scheme has no scheme either. -/
theorem schemeSplit_none_mono {url p t : PyStr}
    (h : schemeSplit url = none) (hdec : url = p ++ t) :
    schemeSplit p = none := by
  rcases hsp : schemeSplit p with _ | ⟨s, rest⟩
  · rfl
  · obtain ⟨s0, c0, cs, _, hp, hs0, hc, hall, hcolon⟩ := schemeSplit_some hsp
    have hurl : url = s0 ++ ':' :: (rest ++ t) := by
      rw [hdec, hp]
      simp
    rw [hurl, schemeSplit_build s0 (rest ++ t) c0 cs hs0 hc hall hcolon] at h
    exact absurd h (by simp)

/-! ## `_splitparams` lemmas -/

theorem segBody_append_lastSeg (p : PyStr) : p = segBody p ++ lastSeg p := by
  rw [segBody, lastSeg, ← List.reverse_append,
    List.takeWhile_append_dropWhile, List.reverse_reverse]

theorem takeWhile_append_of_exists_neg {α : Type} (p : α → Bool) :
    ∀ (l1 l2 : List α), (∃ x ∈ l1, p x = false) →
      (l1 ++ l2).takeWhile p = l1.takeWhile p
  | [], _, h => by
    obtain ⟨x, hx, _⟩ := h
    exact absurd hx (by simp)
  | a :: l1, l2, h => by
    rw [List.cons_append, List.takeWhile_cons, List.takeWhile_cons]
    by_cases ha : p a = true
    · obtain ⟨x, hx, hpx⟩ := h
      have hx1 : x ∈ l1 := by
        rcases List.mem_cons.mp hx with hx | hx
        · rw [hx] at hpx; rw [hpx] at ha; exact absurd ha (by simp)
        · exact hx
      rw [if_pos ha, if_pos ha,
        takeWhile_append_of_exists_neg p l1 l2 ⟨x, hx1, hpx⟩]
    · rw [if_neg ha, if_neg ha]

/-- For a path containing `/`, params-stability says exactly that the last
segment has no `;`. -/
theorem splitparams_eq_self_iff_slash {p : PyStr} (h : '/' ∈ p) :
    splitparams p = (p, []) ↔ ¬ ';' ∈ lastSeg p := by
  rw [splitparams, if_pos h]
  constructor
  · intro heq
    rcases hsp : splitOnceChar ';' (lastSeg p) with _ | ⟨a, b⟩
    · exact (splitOnceChar_none_iff _ _).mp hsp
    · rw [hsp] at heq
      obtain ⟨hdec, _⟩ := splitOnceChar_some hsp
      simp only [Prod.mk.injEq] at heq
      obtain ⟨hpa, hb⟩ := heq
      exfalso
      have hp2 : segBody p ++ lastSeg p = segBody p ++ a := by
        rw [← segBody_append_lastSeg, hpa]
      have hla : lastSeg p = a := by
        have := List.append_cancel_left hp2
        exact this
      rw [hdec] at hla
      have hlen := congrArg List.length hla
      simp at hlen
  · intro hns
    rw [splitOnceChar_none hns]

/-- For a path without `/`, params-stability says the path has no `;`. -/
theorem splitparams_eq_self_iff_noslash {p : PyStr} (h : ¬ '/' ∈ p) :
    splitparams p = (p, []) ↔ ¬ ';' ∈ p := by
  rw [splitparams, if_neg h]
  constructor
  · intro heq
    rcases hsp : splitOnceChar ';' p with _ | ⟨a, b⟩
    · exact (splitOnceChar_none_iff _ _).mp hsp
    · rw [hsp] at heq
      obtain ⟨hdec, hmem⟩ := splitOnceChar_some hsp
      simp only [Prod.mk.injEq] at heq
      obtain ⟨hpa, hb⟩ := heq
      exfalso
      rw [← hpa] at hdec
      have hlen := congrArg List.length hdec
      simp at hlen
  · intro hns
    rw [splitOnceChar_none hns]

/-- Prepending a slash to a params-stable path keeps it params-stable. -/
theorem splitparams_cons_slash {p : PyStr} (h : splitparams p = (p, [])) :
    splitparams ('/' :: p) = ('/' :: p, []) := by
  rw [splitparams_eq_self_iff_slash (List.mem_cons_self _ _)]
  by_cases hp : '/' ∈ p
  · have hns := (splitparams_eq_self_iff_slash hp).mp h
    have hls : lastSeg ('/' :: p) = lastSeg p := by
      rw [lastSeg, lastSeg, List.reverse_cons,
        takeWhile_append_of_exists_neg _ _ _
          ⟨'/', List.mem_reverse.mpr hp, by simp⟩]
    rw [hls]
    exact hns
  · have hns := (splitparams_eq_self_iff_noslash hp).mp h
    have hls : lastSeg ('/' :: p) = p := by
      rw [lastSeg, List.reverse_cons, List.takeWhile_append_of_pos ?hpos]
      case hpos =>
        intro a ha
        have : ¬ a = '/' := by
          intro hc
          exact hp (hc ▸ List.mem_reverse.mp ha)
        simpa using this
      rw [List.takeWhile_cons]
      simp
    rw [hls]
    exact hns

/-! ## Character-class bridging lemmas -/

theorem char_eq_iff_toNat (c d : Char) : c = d ↔ c.toNat = d.toNat :=
  ⟨fun h => by rw [h], char_eq_of_toNat⟩

theorem isAsciiAlpha_iff (c : Char) : isAsciiAlpha c = true ↔
    ((65 ≤ c.toNat ∧ c.toNat ≤ 90) ∨ (97 ≤ c.toNat ∧ c.toNat ≤ 122)) := by
  rw [isAsciiAlpha]
  simp only [decide_eq_true_eq]
  exact Iff.rfl

theorem isAsciiDigit_iff (c : Char) : isAsciiDigit c = true ↔
    (48 ≤ c.toNat ∧ c.toNat ≤ 57) := by
  rw [isAsciiDigit]
  simp only [decide_eq_true_eq]
  exact Iff.rfl

theorem isC0ControlOrSpace_iff (c : Char) :
    isC0ControlOrSpace c = true ↔ c.toNat ≤ 0x20 := by
  rw [isC0ControlOrSpace]
  simp only [decide_eq_true_eq]

theorem isUnsafeUrlByte_iff (c : Char) : isUnsafeUrlByte c = true ↔
    (c.toNat = 9 ∨ c.toNat = 13 ∨ c.toNat = 10) := by
  rw [isUnsafeUrlByte]
  simp only [decide_eq_true_eq, char_eq_iff_toNat]
  exact Iff.rfl

theorem isSchemeChar_iff (c : Char) : isSchemeChar c = true ↔
    (isAsciiAlpha c = true ∨ isAsciiDigit c = true ∨
      c.toNat = 43 ∨ c.toNat = 45 ∨ c.toNat = 46) := by
  rw [isSchemeChar]
  simp only [decide_eq_true_eq, Bool.or_eq_true, char_eq_iff_toNat]
  exact Iff.rfl

/-- A scheme character is never one of the removed unsafe bytes. -/
theorem schemeChar_not_unsafe {c : Char} (h : isSchemeChar c = true) :
    isUnsafeUrlByte c = false := by
  rw [← Bool.not_eq_true, isUnsafeUrlByte_iff]
  rw [isSchemeChar_iff] at h
  rcases h with h | h | h | h | h
  · rw [isAsciiAlpha_iff] at h
    omega
  · rw [isAsciiDigit_iff] at h
    omega
  all_goals omega

/-- Lower-casing preserves scheme characters. -/
theorem isSchemeChar_lower {c : Char} (h : isSchemeChar c = true) :
    isSchemeChar (pyLowerChar c) = true := by
  by_cases hAZ : 65 ≤ c.toNat ∧ c.toNat ≤ 90
  · have hl : (pyLowerChar c).toNat = c.toNat + 32 := by
      rw [pyLowerChar_toNat, if_pos hAZ]
    rw [isSchemeChar_iff]
    left
    rw [isAsciiAlpha_iff]
    right
    omega
  · have hl : pyLowerChar c = c :=
      char_eq_of_toNat (by rw [pyLowerChar_toNat, if_neg hAZ])
    rw [hl]
    exact h

/-- Lower-casing an ASCII letter yields an ASCII letter. -/
theorem isAsciiAlpha_lower {c : Char} (h : isAsciiAlpha c = true) :
    (pyLowerChar c).toNat < 0x80 ∧ isAsciiAlpha (pyLowerChar c) = true := by
  rw [isAsciiAlpha_iff] at h
  by_cases hAZ : 65 ≤ c.toNat ∧ c.toNat ≤ 90
  · have hl : (pyLowerChar c).toNat = c.toNat + 32 := by
      rw [pyLowerChar_toNat, if_pos hAZ]
    constructor
    · omega
    · rw [isAsciiAlpha_iff]
      right
      omega
  · have hl : (pyLowerChar c).toNat = c.toNat := by
      rw [pyLowerChar_toNat, if_neg hAZ]
    constructor
    · omega
    · rw [isAsciiAlpha_iff]
      omega

/-! ## Shape facts of a successful URL parse -/

/-- Structural facts that hold of every `Except.ok` result of `urlparse`
(and are exactly what re-parsing the normalized form needs). -/
structure ParseFacts (r : ParseResult) : Prop where
  scheme_lower : pyLower r.scheme = r.scheme
  scheme_shape : r.scheme = [] ∨ ∃ c0 cs, r.scheme = c0 :: cs ∧
    (c0.toNat < 0x80 ∧ isAsciiAlpha c0 = true) ∧
    r.scheme.all isSchemeChar = true ∧ ¬ ':' ∈ r.scheme
  netloc_nosep : ∀ d ∈ r.netloc, ¬ d = '/' ∧ ¬ d = '?' ∧ ¬ d = '#'
  netloc_balanced : bracketsUnbalanced r.netloc = false
  netloc_safe : ∀ d ∈ r.netloc, isUnsafeUrlByte d = false
  path_noq : ¬ '?' ∈ r.path
  path_nof : ¬ '#' ∈ r.path
  path_safe : ∀ d ∈ r.path, isUnsafeUrlByte d = false
  netloc_path : r.netloc ≠ [] → r.path = [] ∨ ∃ t, r.path = '/' :: t
  rel_path : r.scheme = [] → r.netloc = [] →
    r.path = [] ∨ (∃ c cs, r.path = c :: cs ∧
      isC0ControlOrSpace c = false) ∧ schemeSplit r.path = none

/-- Every character of the cleaned URL survives `removeUnsafe`. -/
theorem mem_removeUnsafe {d : Char} {l : PyStr} (h : d ∈ removeUnsafe l) :
    isUnsafeUrlByte d = false := by
  rw [removeUnsafe] at h
  have := List.of_mem_filter h
  simpa using this

/-- The cleaned URL is empty or starts with a non-control character. -/
theorem cleaned_head (u : PyStr) :
    removeUnsafe (lstripC0 u) = [] ∨
    ∃ c cs, removeUnsafe (lstripC0 u) = c :: cs ∧
      isC0ControlOrSpace c = false := by
  rcases hd : lstripC0 u with _ | ⟨c, cs⟩
  · left
    rfl
  · right
    have hc : isC0ControlOrSpace c = false := dropWhile_head_false _ hd
    have hcu : isUnsafeUrlByte c = false := by
      rw [← Bool.not_eq_true, isUnsafeUrlByte_iff]
      rw [← Bool.not_eq_true, isC0ControlOrSpace_iff] at hc
      omega
    refine ⟨c, removeUnsafe cs, ?_, hc⟩
    rw [removeUnsafe, List.filter_cons_of_pos (by simp [hcu])]
    rfl

/-- The first component of `splitFragmentQuery` on a list that is empty or
starts with a path/query/fragment delimiter is empty or starts with a
slash. -/
theorem splitFragmentQuery_delim_head {rest : PyStr}
    (h : rest = [] ∨ ∃ x xs, rest = x :: xs ∧ (x = '/' ∨ x = '?' ∨ x = '#')) :
    (splitFragmentQuery rest).1 = [] ∨
    ∃ t, (splitFragmentQuery rest).1 = '/' :: t := by
  rcases h with h | ⟨x, xs, hx, hd⟩
  · subst h
    exact Or.inl rfl
  · subst hx
    obtain ⟨t, hdec, hnf, hnq⟩ := splitFragmentQuery_spec (x :: xs)
    rcases hp : (splitFragmentQuery (x :: xs)).1 with _ | ⟨y, ys⟩
    · exact Or.inl rfl
    · right
      rw [hp] at hdec hnf hnq
      simp only [List.cons_append, List.cons.injEq] at hdec
      rcases hd with hd | hd | hd
      · exact ⟨ys, by rw [← hdec.1, hd]⟩
      · exfalso
        apply hnq
        rw [← hdec.1, hd]
        exact List.mem_cons_self _ _
      · exfalso
        apply hnf
        rw [← hdec.1, hd]
        exact List.mem_cons_self _ _

/-- The head of a nonempty initial part is the head of the whole list. -/
theorem head_of_append {p t l : PyStr} {c : Char} {cs : PyStr}
    (hdec : l = p ++ t) (hl : l = c :: cs) :
    p = [] ∨ ∃ ps, p = c :: ps := by
  rcases hp : p with _ | ⟨x, xs⟩
  · exact Or.inl rfl
  · right
    rw [hp] at hdec
    rw [hdec] at hl
    simp only [List.cons_append, List.cons.injEq] at hl
    exact ⟨xs, by rw [hl.1]⟩

/-- The shape facts hold of every successful `urlsplit`, stated on the
6-component `urlparse` wrapper below; here: the `urlsplit` core. -/
theorem urlsplit_facts {u : PyStr} {r : SplitResult}
    (h : urlsplit u = Except.ok r) :
    ParseFacts ⟨r.scheme, r.netloc, r.path, [], r.query, r.fragment⟩ := by
  rw [urlsplit] at h
  rcases hss : schemeSplit (removeUnsafe (lstripC0 u)) with _ | ⟨s0, rest0⟩ <;>
    simp only [hss] at h
  case none =>
    -- scheme is empty, url unchanged
    by_cases h2 : (removeUnsafe (lstripC0 u)).take 2 = ['/', '/']
    · rw [if_pos h2] at h
      rcases hsn : splitnetloc ((removeUnsafe (lstripC0 u)).drop 2) with ⟨n, rest⟩
      rw [hsn] at h
      obtain ⟨hdecn, hnosep, hresthead⟩ := splitnetloc_spec
        ((removeUnsafe (lstripC0 u)).drop 2)
      simp only [hsn] at hdecn hnosep hresthead
      by_cases hbr : bracketsUnbalanced n = true
      · rw [if_pos hbr] at h
        exact absurd h (by simp)
      · rw [if_neg hbr] at h
        obtain ⟨t, hdec, hnf, hnq⟩ := splitFragmentQuery_spec rest
        rcases hsfq : splitFragmentQuery rest with ⟨p, q, f⟩
        simp only [hsfq] at h hdec hnf hnq
        simp only [Except.ok.injEq] at h
        subst h
        have hphead := splitFragmentQuery_delim_head hresthead
        simp only [hsfq] at hphead
        refine ⟨rfl, Or.inl rfl, ?_, ?_, ?_, hnq, hnf, ?_, ?_, ?_⟩
        · exact hnosep
        · simpa using hbr
        · intro d hd
          apply @mem_removeUnsafe _ (lstripC0 u)
          have hmem : d ∈ (removeUnsafe (lstripC0 u)).drop 2 := by
            rw [hdecn, hdec]
            simp [hd]
          exact List.mem_of_mem_drop hmem
        · intro d hd
          apply @mem_removeUnsafe _ (lstripC0 u)
          have hmem : d ∈ (removeUnsafe (lstripC0 u)).drop 2 := by
            rw [hdecn, hdec]
            simp [hd]
          exact List.mem_of_mem_drop hmem
        · exact fun _ => hphead
        · intro _ _
          rcases hphead with hp | ⟨t2, hp⟩
          · exact Or.inl hp
          · right
            refine ⟨⟨'/', t2, hp, by decide⟩, ?_⟩
            rw [hp]
            exact schemeSplit_none_head '/' t2 (by decide)
    · rw [if_neg h2] at h
      obtain ⟨t, hdec, hnf, hnq⟩ := splitFragmentQuery_spec
        (removeUnsafe (lstripC0 u))
      rcases hsfq : splitFragmentQuery (removeUnsafe (lstripC0 u)) with ⟨p, q, f⟩
      simp only [hsfq] at h hdec hnf hnq
      simp only [Except.ok.injEq] at h
      subst h
      refine ⟨rfl, Or.inl rfl, ?_, ?_, ?_, hnq, hnf, ?_, ?_, ?_⟩
      · simp
      · rfl
      · simp
      · intro d hd
        exact mem_removeUnsafe (hdec ▸ List.mem_append_left t hd)
      · simp
      · intro _ _
        rcases cleaned_head u with hc | ⟨c, cs, hc, hcc⟩
        · left
          rw [hc] at hdec
          rcases hp : p with _ | _
          · rfl
          · rw [hp] at hdec
            exact absurd hdec.symm (by simp)
        · rcases head_of_append hdec hc with hp | ⟨ps, hp⟩
          · exact Or.inl hp
          · right
            refine ⟨⟨c, ps, hp, hcc⟩, ?_⟩
            exact schemeSplit_none_mono (hc ▸ hss) hdec
  case some =>
    obtain ⟨sb, c0, cs, hslow, hdec0, hsb, hc0, hall, hcolon⟩ :=
      schemeSplit_some hss
    have hs_ne : s0 ≠ [] := by
      rw [hslow, hsb, pyLower]
      simp
    have hs_lower : pyLower s0 = s0 := by
      rw [hslow, pyLower_idem]
    have hs_shape : ∃ d0 ds, s0 = d0 :: ds ∧
        (d0.toNat < 0x80 ∧ isAsciiAlpha d0 = true) ∧
        s0.all isSchemeChar = true ∧ ¬ ':' ∈ s0 := by
      refine ⟨pyLowerChar c0, pyLower cs, ?_, ?_, ?_, ?_⟩
      · rw [hslow, hsb, pyLower]
        rfl
      · exact ⟨(isAsciiAlpha_lower hc0.2).1, (isAsciiAlpha_lower hc0.2).2⟩
      · rw [hslow, pyLower, List.all_map]
        rw [List.all_eq_true] at hall ⊢
        intro d hd
        exact isSchemeChar_lower (hall d hd)
      · rw [hslow]
        rw [mem_pyLower_iff (by decide)]
        exact hcolon
    by_cases h2 : rest0.take 2 = ['/', '/']
    · rw [if_pos h2] at h
      rcases hsn : splitnetloc (rest0.drop 2) with ⟨n, rest⟩
      rw [hsn] at h
      obtain ⟨hdecn, hnosep, hresthead⟩ := splitnetloc_spec (rest0.drop 2)
      simp only [hsn] at hdecn hnosep hresthead
      by_cases hbr : bracketsUnbalanced n = true
      · rw [if_pos hbr] at h
        exact absurd h (by simp)
      · rw [if_neg hbr] at h
        obtain ⟨t, hdec, hnf, hnq⟩ := splitFragmentQuery_spec rest
        rcases hsfq : splitFragmentQuery rest with ⟨p, q, f⟩
        simp only [hsfq] at h hdec hnf hnq
        simp only [Except.ok.injEq] at h
        subst h
        have hphead := splitFragmentQuery_delim_head hresthead
        simp only [hsfq] at hphead
        have hsafe : ∀ d ∈ n ++ p, isUnsafeUrlByte d = false := by
          intro d hd
          apply @mem_removeUnsafe _ (lstripC0 u)
          rw [hdec0]
          have hmem : d ∈ rest0.drop 2 := by
            rw [hdecn]
            rcases List.mem_append.mp hd with hd | hd
            · exact List.mem_append_left _ hd
            · exact List.mem_append_right _ (hdec ▸ List.mem_append_left t hd)
          have : d ∈ rest0 := List.mem_of_mem_drop hmem
          simp [this]
        refine ⟨hs_lower, Or.inr hs_shape, ?_, ?_, ?_, hnq, hnf, ?_, ?_, ?_⟩
        · exact hnosep
        · simpa using hbr
        · exact fun d hd => hsafe d (List.mem_append_left _ hd)
        · exact fun d hd => hsafe d (List.mem_append_right _ hd)
        · exact fun _ => hphead
        · exact fun hse _ => absurd hse hs_ne
    · rw [if_neg h2] at h
      obtain ⟨t, hdec, hnf, hnq⟩ := splitFragmentQuery_spec rest0
      rcases hsfq : splitFragmentQuery rest0 with ⟨p, q, f⟩
      simp only [hsfq] at h hdec hnf hnq
      simp only [Except.ok.injEq] at h
      subst h
      refine ⟨hs_lower, Or.inr hs_shape, ?_, ?_, ?_, hnq, hnf, ?_, ?_, ?_⟩
      · simp
      · rfl
      · simp
      · intro d hd
        apply @mem_removeUnsafe _ (lstripC0 u)
        rw [hdec0]
        have : d ∈ rest0 := hdec ▸ List.mem_append_left t hd
        simp [this]
      · simp
      · exact fun hse _ => absurd hse hs_ne

/-- The params split keeps an initial part of the path. -/
theorem splitparams_init (p : PyStr) : ∃ t, p = (splitparams p).1 ++ t := by
  rw [splitparams]
  by_cases h : '/' ∈ p
  · rw [if_pos h]
    rcases hsp : splitOnceChar ';' (lastSeg p) with _ | ⟨a, b⟩
    · simp only [hsp]
      exact ⟨[], by simp⟩
    · simp only [hsp]
      obtain ⟨hdec, _⟩ := splitOnceChar_some hsp
      refine ⟨';' :: b, ?_⟩
      conv_lhs => rw [segBody_append_lastSeg p]
      rw [hdec]
      simp
  · rw [if_neg h]
    rcases hsp : splitOnceChar ';' p with _ | ⟨a, b⟩
    · simp only [hsp]
      exact ⟨[], by simp⟩
    · simp only [hsp]
      obtain ⟨hdec, _⟩ := splitOnceChar_some hsp
      exact ⟨';' :: b, hdec⟩

/-- The shape facts hold of every successful `urlparse`. -/
theorem urlparse_facts {u : PyStr} {r : ParseResult}
    (h : urlparse u = Except.ok r) : ParseFacts r := by
  rw [urlparse] at h
  rcases hus : urlsplit u with _ | sr
  · rw [hus, except_error_bind] at h
    exact absurd h (by simp)
  · rw [hus] at h
    simp only [except_ok_bind] at h
    obtain ⟨f1, f2, f3, f4, f5, f6, f7, f8, f9, f10⟩ := urlsplit_facts hus
    dsimp only at f1 f2 f3 f4 f5 f6 f7 f8 f9 f10
    by_cases hcond : sr.scheme ∈ uses_params ∧ ';' ∈ sr.path
    · rw [if_pos hcond] at h
      simp only [except_pure_eq, Except.ok.injEq] at h
      subst h
      obtain ⟨t2, hdec⟩ := splitparams_init sr.path
      refine ⟨f1, f2, f3, f4, f5, ?_, ?_, ?_, ?_, ?_⟩
      · intro hc
        exact f6 (hdec ▸ List.mem_append_left t2 hc)
      · intro hc
        exact f7 (hdec ▸ List.mem_append_left t2 hc)
      · intro d hd
        exact f8 d (hdec ▸ List.mem_append_left t2 hd)
      · intro hn
        rcases f9 hn with hp | ⟨t3, hp⟩
        · left
          have h2 : (splitparams sr.path).1 ++ t2 = [] := hdec.symm.trans hp
          exact (List.append_eq_nil.mp h2).1
        · exact head_of_append hdec hp
      · intro hse hne
        rcases f10 hse hne with hp | ⟨⟨c, cs, hp, hcc⟩, hnone⟩
        · left
          have h2 : (splitparams sr.path).1 ++ t2 = [] := hdec.symm.trans hp
          exact (List.append_eq_nil.mp h2).1
        · rcases head_of_append hdec hp with hq | ⟨ps, hq⟩
          · exact Or.inl hq
          · right
            refine ⟨⟨c, ps, hq, hcc⟩, ?_⟩
            exact schemeSplit_none_mono hnone hdec
    · rw [if_neg hcond] at h
      simp only [except_pure_eq, Except.ok.injEq] at h
      subst h
      exact ⟨f1, f2, f3, f4, f5, f6, f7, f8, f9, f10⟩

/-! ## Re-parsing the rebuilt URL (claim C3) -/

/-- A list free of the unsafe bytes passes `removeUnsafe` unchanged. -/
theorem removeUnsafe_eq_self {s : PyStr}
    (h : ∀ c ∈ s, isUnsafeUrlByte c = false) : removeUnsafe s = s := by
  rw [removeUnsafe]
  apply List.filter_eq_self.mpr
  intro a ha
  simp [h a ha]

/-- Left-stripping controls and spaces keeps a list whose head is neither. -/
theorem lstripC0_cons {c : Char} (s : PyStr)
    (h : isC0ControlOrSpace c = false) : lstripC0 (c :: s) = c :: s := by
  rw [lstripC0, List.dropWhile_cons, h]
  simp

/-- An ASCII letter is not a control or space character. -/
theorem alpha_not_c0 {c : Char} (h : isAsciiAlpha c = true) :
    isC0ControlOrSpace c = false := by
  rw [← Bool.not_eq_true, isC0ControlOrSpace_iff]
  rw [isAsciiAlpha_iff] at h
  omega

/-- The cleaning pass of `urlsplit` is the identity on a string that is
empty or starts with a non-control character and has no unsafe byte. -/
theorem clean_eq_self {s : PyStr}
    (hhead : s = [] ∨ ∃ c cs, s = c :: cs ∧ isC0ControlOrSpace c = false)
    (hsafe : ∀ c ∈ s, isUnsafeUrlByte c = false) :
    removeUnsafe (lstripC0 s) = s := by
  rcases hhead with h | ⟨c, cs, hs, hc⟩
  · subst h
    rfl
  · subst hs
    rw [lstripC0_cons cs hc, removeUnsafe_eq_self hsafe]

/-- Lower-casing maps the empty string, and only it, to the empty string. -/
theorem pyLower_eq_nil {l : PyStr} : pyLower l = [] ↔ l = [] := by
  rw [pyLower]
  exact List.map_eq_nil_iff

/-- Bracket unbalance of a netloc is invariant under lower-casing. -/
theorem bracketsUnbalanced_pyLower (l : PyStr) :
    bracketsUnbalanced (pyLower l) = bracketsUnbalanced l := by
  unfold bracketsUnbalanced
  exact decide_eq_decide.mpr (by
    rw [@mem_pyLower_iff '[' (by decide) l, @mem_pyLower_iff ']' (by decide) l])

/-- A cons extension of a nonempty string already free of trailing slashes
is itself free of trailing slashes. -/
theorem rstripSlash_cons_fixed {p : PyStr} (c : Char) (hne : p ≠ [])
    (h : rstripSlash p = p) : rstripSlash (c :: p) = c :: p := by
  have hrev := congrArg List.reverse h
  rw [rstripSlash, List.reverse_reverse] at hrev
  rcases hr : p.reverse with _ | ⟨x, xs⟩
  · exact absurd (by simpa using congrArg List.reverse hr) hne
  · rw [hr] at hrev
    have hx : decide (x = '/') = false :=
      dropWhile_head_false (fun d : Char => decide (d = '/')) hrev
    have hp : p = xs.reverse ++ [x] := by
      have h2 := congrArg List.reverse hr
      simpa using h2
    rw [rstripSlash, List.reverse_cons, hr]
    simp only [List.cons_append, List.dropWhile_cons, hx, if_false]
    rw [hp]
    simp

/-- Evaluation of `urlunsplit` on components with empty query and
fragment. -/
theorem urlunsplit_eval (s n p : PyStr) :
    urlunsplit ⟨s, n, p, [], []⟩ =
      (let url :=
        if n ≠ [] ∨ (s ≠ [] ∧ s ∈ uses_netloc ∧ p.take 2 ≠ ['/', '/']) then
          '/' :: '/' :: (n ++ (if p ≠ [] ∧ p.take 1 ≠ ['/'] then '/' :: p
            else p))
        else p
      if s ≠ [] then s ++ ':' :: url else url) := rfl

/-- `urlsplit` on an absolute rebuild carrying a scheme: the scheme,
netloc and remainder are recovered exactly. -/
theorem urlsplit_rebuild_abs_scheme (s n r : PyStr) (c0 : Char) (cs : PyStr)
    (hs0 : s = c0 :: cs) (hc0 : c0.toNat < 0x80 ∧ isAsciiAlpha c0 = true)
    (hall : s.all isSchemeChar = true) (hcolon : ¬ ':' ∈ s)
    (hslow : pyLower s = s)
    (hn_nosep : ∀ d ∈ n, ¬ d = '/' ∧ ¬ d = '?' ∧ ¬ d = '#')
    (hn_bal : bracketsUnbalanced n = false)
    (hn_safe : ∀ d ∈ n, isUnsafeUrlByte d = false)
    (hr : r = [] ∨ ∃ t, r = '/' :: t)
    (hr_noq : ¬ '?' ∈ r) (hr_nof : ¬ '#' ∈ r)
    (hr_safe : ∀ d ∈ r, isUnsafeUrlByte d = false) :
    urlsplit (s ++ ':' :: '/' :: '/' :: (n ++ r)) =
      Except.ok ⟨s, n, r, [], []⟩ := by
  have hclean : removeUnsafe (lstripC0 (s ++ ':' :: '/' :: '/' :: (n ++ r)))
      = s ++ ':' :: '/' :: '/' :: (n ++ r) := by
    apply clean_eq_self
    · right
      exact ⟨c0, cs ++ ':' :: '/' :: '/' :: (n ++ r), by rw [hs0]; rfl,
        alpha_not_c0 hc0.2⟩
    · intro d hd
      simp only [List.mem_append, List.mem_cons] at hd
      rcases hd with hd | hd | hd | hd | hd | hd
      · exact schemeChar_not_unsafe (List.all_eq_true.mp hall d hd)
      · subst hd; decide
      · subst hd; decide
      · subst hd; decide
      · exact hn_safe d hd
      · exact hr_safe d hd
  have hss := schemeSplit_build s ('/' :: '/' :: (n ++ r)) c0 cs hs0 hc0
    hall hcolon
  rw [hslow] at hss
  have hsn : splitnetloc (n ++ r) = (n, r) :=
    splitnetloc_append n r hn_nosep hr
  have hsfq : splitFragmentQuery r = (r, [], []) :=
    splitFragmentQuery_id hr_nof hr_noq
  have htk : ('/' :: '/' :: (n ++ r)).take 2 = ['/', '/'] := rfl
  have hdp : ('/' :: '/' :: (n ++ r)).drop 2 = n ++ r := rfl
  rw [urlsplit]
  simp only [hclean, hss]
  rw [if_pos htk]
  simp only [hdp, hsn]
  rw [hn_bal, if_neg Bool.false_ne_true]
  simp only [hsfq]

/-- `urlsplit` on an absolute rebuild with no scheme. -/
theorem urlsplit_rebuild_abs_noscheme (n r : PyStr)
    (hn_nosep : ∀ d ∈ n, ¬ d = '/' ∧ ¬ d = '?' ∧ ¬ d = '#')
    (hn_bal : bracketsUnbalanced n = false)
    (hn_safe : ∀ d ∈ n, isUnsafeUrlByte d = false)
    (hr : r = [] ∨ ∃ t, r = '/' :: t)
    (hr_noq : ¬ '?' ∈ r) (hr_nof : ¬ '#' ∈ r)
    (hr_safe : ∀ d ∈ r, isUnsafeUrlByte d = false) :
    urlsplit ('/' :: '/' :: (n ++ r)) = Except.ok ⟨[], n, r, [], []⟩ := by
  have hclean : removeUnsafe (lstripC0 ('/' :: '/' :: (n ++ r)))
      = '/' :: '/' :: (n ++ r) := by
    apply clean_eq_self
    · right
      exact ⟨'/', '/' :: (n ++ r), rfl, by decide⟩
    · intro d hd
      simp only [List.mem_append, List.mem_cons] at hd
      rcases hd with hd | hd | hd | hd
      · subst hd; decide
      · subst hd; decide
      · exact hn_safe d hd
      · exact hr_safe d hd
  have hss : schemeSplit ('/' :: '/' :: (n ++ r)) = none :=
    schemeSplit_none_head '/' ('/' :: (n ++ r)) (by decide)
  have hsn : splitnetloc (n ++ r) = (n, r) :=
    splitnetloc_append n r hn_nosep hr
  have hsfq : splitFragmentQuery r = (r, [], []) :=
    splitFragmentQuery_id hr_nof hr_noq
  have htk : ('/' :: '/' :: (n ++ r)).take 2 = ['/', '/'] := rfl
  have hdp : ('/' :: '/' :: (n ++ r)).drop 2 = n ++ r := rfl
  rw [urlsplit]
  simp only [hclean, hss]
  rw [if_pos htk]
  simp only [hdp, hsn]
  rw [hn_bal, if_neg Bool.false_ne_true]
  simp only [hsfq]

/-- `urlsplit` on a relative rebuild carrying a scheme. -/
theorem urlsplit_rebuild_rel_scheme (s p : PyStr) (c0 : Char) (cs : PyStr)
    (hs0 : s = c0 :: cs) (hc0 : c0.toNat < 0x80 ∧ isAsciiAlpha c0 = true)
    (hall : s.all isSchemeChar = true) (hcolon : ¬ ':' ∈ s)
    (hslow : pyLower s = s)
    (hp2 : p.take 2 ≠ ['/', '/'])
    (hp_noq : ¬ '?' ∈ p) (hp_nof : ¬ '#' ∈ p)
    (hp_safe : ∀ d ∈ p, isUnsafeUrlByte d = false) :
    urlsplit (s ++ ':' :: p) = Except.ok ⟨s, [], p, [], []⟩ := by
  have hclean : removeUnsafe (lstripC0 (s ++ ':' :: p)) = s ++ ':' :: p := by
    apply clean_eq_self
    · right
      exact ⟨c0, cs ++ ':' :: p, by rw [hs0]; rfl, alpha_not_c0 hc0.2⟩
    · intro d hd
      simp only [List.mem_append, List.mem_cons] at hd
      rcases hd with hd | hd | hd
      · exact schemeChar_not_unsafe (List.all_eq_true.mp hall d hd)
      · subst hd; decide
      · exact hp_safe d hd
  have hss := schemeSplit_build s p c0 cs hs0 hc0 hall hcolon
  rw [hslow] at hss
  have hsfq : splitFragmentQuery p = (p, [], []) :=
    splitFragmentQuery_id hp_nof hp_noq
  rw [urlsplit]
  simp only [hclean, hss]
  rw [if_neg hp2]
  simp only [hsfq]

/-- `urlsplit` on a relative rebuild with no scheme. -/
theorem urlsplit_rebuild_rel_noscheme (p : PyStr)
    (hhead : p = [] ∨ ∃ c cs, p = c :: cs ∧ isC0ControlOrSpace c = false)
    (hnone : schemeSplit p = none)
    (hp2 : p.take 2 ≠ ['/', '/'])
    (hp_noq : ¬ '?' ∈ p) (hp_nof : ¬ '#' ∈ p)
    (hp_safe : ∀ d ∈ p, isUnsafeUrlByte d = false) :
    urlsplit p = Except.ok ⟨[], [], p, [], []⟩ := by
  have hclean := clean_eq_self hhead hp_safe
  have hsfq : splitFragmentQuery p = (p, [], []) :=
    splitFragmentQuery_id hp_nof hp_noq
  rw [urlsplit]
  simp only [hclean, hnone]
  rw [if_neg hp2]
  simp only [hsfq]

/-- Re-splitting the URL rebuilt by `urlunsplit` from parse-shaped
components recovers the same scheme and netloc and the same path — except
that a netloc-less rebuild under a netloc scheme prefixes a slash onto a
relative path; the rebuilt string itself is insensitive to that change. -/
theorem urlsplit_rebuild (s n p : PyStr)
    (hs : s = [] ∨ ∃ c0 cs, s = c0 :: cs ∧
      (c0.toNat < 0x80 ∧ isAsciiAlpha c0 = true) ∧
      s.all isSchemeChar = true ∧ ¬ ':' ∈ s)
    (hslow : pyLower s = s)
    (hn_nosep : ∀ d ∈ n, ¬ d = '/' ∧ ¬ d = '?' ∧ ¬ d = '#')
    (hn_bal : bracketsUnbalanced n = false)
    (hn_safe : ∀ d ∈ n, isUnsafeUrlByte d = false)
    (hp_noq : ¬ '?' ∈ p) (hp_nof : ¬ '#' ∈ p)
    (hp_safe : ∀ d ∈ p, isUnsafeUrlByte d = false)
    (hnp : n ≠ [] → p = [] ∨ ∃ t, p = '/' :: t)
    (hrel : s = [] → n = [] → p = [] ∨
      (∃ c cs, p = c :: cs ∧ isC0ControlOrSpace c = false) ∧
      schemeSplit p = none)
    (htake : n = [] → p.take 2 ≠ ['/', '/']) :
    ∃ p2, urlsplit (urlunsplit ⟨s, n, p, [], []⟩) =
        Except.ok ⟨s, n, p2, [], []⟩ ∧
      urlunsplit ⟨s, n, p2, [], []⟩ = urlunsplit ⟨s, n, p, [], []⟩ ∧
      (p2 = p ∨ (p2 = '/' :: p ∧ p ≠ [])) := by
  by_cases hbig : n ≠ [] ∨ (s ≠ [] ∧ s ∈ uses_netloc ∧ p.take 2 ≠ ['/', '/'])
  · by_cases hin : p ≠ [] ∧ p.take 1 ≠ ['/']
    · -- the rebuild prefixes a slash onto the relative path
      have hn0 : n = [] := by
        by_contra hne
        rcases hnp hne with hp0 | ⟨t, hp0⟩
        · exact hin.1 hp0
        · exact hin.2 (by rw [hp0]; rfl)
      subst hn0
      have hsnl : s ≠ [] ∧ s ∈ uses_netloc ∧ p.take 2 ≠ ['/', '/'] := by
        rcases hbig with h | h
        · exact absurd rfl h
        · exact h
      have hsx : ∃ c0 cs, s = c0 :: cs ∧
          (c0.toNat < 0x80 ∧ isAsciiAlpha c0 = true) ∧
          s.all isSchemeChar = true ∧ ¬ ':' ∈ s := by
        rcases hs with h | h
        · exact absurd h hsnl.1
        · exact h
      obtain ⟨c0, cs, hs1, hc0, hall, hcolon⟩ := hsx
      refine ⟨'/' :: p, ?_, ?_, Or.inr ⟨rfl, hin.1⟩⟩
      · simp only [urlunsplit_eval]
        rw [if_pos hbig, if_pos hin, if_pos hsnl.1]
        exact urlsplit_rebuild_abs_scheme s [] ('/' :: p) c0 cs hs1 hc0 hall
          hcolon hslow (fun d hd => absurd hd (List.not_mem_nil d)) rfl
          (fun d hd => absurd hd (List.not_mem_nil d)) (Or.inr ⟨p, rfl⟩)
          (by
            intro hc
            rcases List.mem_cons.mp hc with hc | hc
            · exact absurd hc (by decide)
            · exact hp_noq hc)
          (by
            intro hc
            rcases List.mem_cons.mp hc with hc | hc
            · exact absurd hc (by decide)
            · exact hp_nof hc)
          (by
            intro d hd
            rcases List.mem_cons.mp hd with hd | hd
            · subst hd; decide
            · exact hp_safe d hd)
      · have hc2 : ('/' :: p).take 2 ≠ ['/', '/'] := by
          intro hc
          have h2 : '/' :: p.take 1 = '/' :: ['/'] := hc
          injection h2 with h3 h4
          exact hin.2 h4
        simp only [urlunsplit_eval]
        rw [if_pos (Or.inr ⟨hsnl.1, hsnl.2.1, hc2⟩),
          if_neg (show ¬ (('/' :: p) ≠ [] ∧ ('/' :: p).take 1 ≠ ['/'])
            from fun hcon => hcon.2 rfl),
          if_pos hbig, if_pos hin]
    · -- the path is kept verbatim behind the netloc
      have hr' : p = [] ∨ ∃ t, p = '/' :: t := by
        rcases p with _ | ⟨x, xs⟩
        · exact Or.inl rfl
        · right
          rcases not_and_or.mp hin with h | h
          · exact absurd (List.cons_ne_nil x xs) h
          · have h1 := not_not.mp h
            have h2 : [x] = ['/'] := h1
            injection h2 with h3 h4
            exact ⟨xs, by rw [h3]⟩
      refine ⟨p, ?_, rfl, Or.inl rfl⟩
      simp only [urlunsplit_eval]
      rw [if_pos hbig, if_neg hin]
      by_cases hs0 : s = []
      · subst hs0
        rw [if_neg (show ¬ (([] : PyStr) ≠ []) from fun hc => hc rfl)]
        exact urlsplit_rebuild_abs_noscheme n p hn_nosep hn_bal hn_safe hr'
          hp_noq hp_nof hp_safe
      · rw [if_pos hs0]
        have hsx : ∃ c0 cs, s = c0 :: cs ∧
            (c0.toNat < 0x80 ∧ isAsciiAlpha c0 = true) ∧
            s.all isSchemeChar = true ∧ ¬ ':' ∈ s := by
          rcases hs with h | h
          · exact absurd h hs0
          · exact h
        obtain ⟨c0, cs, hs1, hc0, hall, hcolon⟩ := hsx
        exact urlsplit_rebuild_abs_scheme s n p c0 cs hs1 hc0 hall hcolon
          hslow hn_nosep hn_bal hn_safe hr' hp_noq hp_nof hp_safe
  · -- no authority is rebuilt: the path stands alone
    have hn0 : n = [] := by
      by_contra h
      exact hbig (Or.inl h)
    subst hn0
    have hp2 : p.take 2 ≠ ['/', '/'] := htake rfl
    refine ⟨p, ?_, rfl, Or.inl rfl⟩
    simp only [urlunsplit_eval]
    rw [if_neg hbig]
    by_cases hs0 : s = []
    · subst hs0
      rw [if_neg (show ¬ (([] : PyStr) ≠ []) from fun hc => hc rfl)]
      rcases hrel rfl rfl with hp0 | ⟨hhead, hnone⟩
      · subst hp0
        exact urlsplit_rebuild_rel_noscheme [] (Or.inl rfl) rfl hp2
          hp_noq hp_nof hp_safe
      · exact urlsplit_rebuild_rel_noscheme p (Or.inr hhead) hnone hp2
          hp_noq hp_nof hp_safe
    · rw [if_pos hs0]
      have hsx : ∃ c0 cs, s = c0 :: cs ∧
          (c0.toNat < 0x80 ∧ isAsciiAlpha c0 = true) ∧
          s.all isSchemeChar = true ∧ ¬ ':' ∈ s := by
        rcases hs with h | h
        · exact absurd h hs0
        · exact h
      obtain ⟨c0, cs, hs1, hc0, hall, hcolon⟩ := hsx
      exact urlsplit_rebuild_rel_scheme s p c0 cs hs1 hc0 hall hcolon hslow
        hp2 hp_noq hp_nof hp_safe

/-- C3 (amended): `normalize_url` is idempotent on every URL that parses
successfully, yields no query dictionary entries, keeps a param-free last
path segment after the trailing-slash strip, and does not pair an empty
authority with a canonical path starting in `//`.  The canonical form `v`
it produces then satisfies `normalize_url v = v`. -/
theorem c3_amended_idempotent_when (u : PyStr) (r : ParseResult)
    (hr : urlparse u = Except.ok r)
    (hq : parse_qs r.query = [])
    (hsp : splitparams (rstripSlash r.path) = (rstripSlash r.path, []))
    (hnn : ¬ (r.netloc = [] ∧ (rstripSlash r.path).take 2 = ['/', '/'])) :
    ∃ v, normalize_url u = Except.ok v ∧ normalize_url v = Except.ok v := by
  obtain ⟨hlow, hshape, hnosep, hbal, hsafe, hnoq, hnof, hpsafe, hnpp, hrel⟩ :=
    urlparse_facts hr
  obtain ⟨t, hdec, hslash⟩ := rstripSlash_append r.path
  -- the first canonicalization
  have hv1 : normalize_url u = Except.ok
      (urlunsplit ⟨r.scheme, pyLower r.netloc, rstripSlash r.path, [], []⟩)
      := by
    rw [normalize_url, hr, except_ok_bind]
    simp only [hq, except_pure_eq, Except.ok.injEq]
    rw [hlow]
    rfl
  -- hypotheses of the rebuild lemma for the canonical components
  have hn_nosep : ∀ d ∈ pyLower r.netloc,
      ¬ d = '/' ∧ ¬ d = '?' ∧ ¬ d = '#' := by
    intro d hd
    refine ⟨?_, ?_, ?_⟩ <;> intro he <;> subst he
    · exact (hnosep '/'
        ((@mem_pyLower_iff '/' (by decide) r.netloc).mp hd)).1 rfl
    · exact ((hnosep '?'
        ((@mem_pyLower_iff '?' (by decide) r.netloc).mp hd)).2).1 rfl
    · exact ((hnosep '#'
        ((@mem_pyLower_iff '#' (by decide) r.netloc).mp hd)).2).2 rfl
  have hn_bal : bracketsUnbalanced (pyLower r.netloc) = false := by
    rw [bracketsUnbalanced_pyLower]
    exact hbal
  have hn_safe : ∀ d ∈ pyLower r.netloc, isUnsafeUrlByte d = false := by
    intro d hd
    rcases hb : isUnsafeUrlByte d with _ | _
    · rfl
    · exfalso
      rw [isUnsafeUrlByte] at hb
      rcases of_decide_eq_true hb with h3 | h3 | h3 <;> subst h3
      · exact absurd (hsafe '\t'
          ((@mem_pyLower_iff '\t' (by decide) r.netloc).mp hd)) (by decide)
      · exact absurd (hsafe '\r'
          ((@mem_pyLower_iff '\r' (by decide) r.netloc).mp hd)) (by decide)
      · exact absurd (hsafe '\n'
          ((@mem_pyLower_iff '\n' (by decide) r.netloc).mp hd)) (by decide)
  have hp_noq : ¬ '?' ∈ rstripSlash r.path := by
    intro hc
    exact hnoq (hdec ▸ List.mem_append_left t hc)
  have hp_nof : ¬ '#' ∈ rstripSlash r.path := by
    intro hc
    exact hnof (hdec ▸ List.mem_append_left t hc)
  have hp_safe : ∀ d ∈ rstripSlash r.path, isUnsafeUrlByte d = false := by
    intro d hd
    exact hpsafe d (hdec ▸ List.mem_append_left t hd)
  have hnp : pyLower r.netloc ≠ [] →
      rstripSlash r.path = [] ∨ ∃ t2, rstripSlash r.path = '/' :: t2 := by
    intro hne
    have hne2 : r.netloc ≠ [] := fun h0 => hne (by rw [h0]; rfl)
    rcases hnpp hne2 with hp0 | ⟨t3, hp0⟩
    · left
      have h2 : rstripSlash r.path ++ t = [] := hdec.symm.trans hp0
      exact (List.append_eq_nil.mp h2).1
    · exact head_of_append hdec hp0
  have hrel2 : r.scheme = [] → pyLower r.netloc = [] →
      rstripSlash r.path = [] ∨
      (∃ c cs, rstripSlash r.path = c :: cs ∧ isC0ControlOrSpace c = false) ∧
      schemeSplit (rstripSlash r.path) = none := by
    intro hse hne
    have hne2 : r.netloc = [] := pyLower_eq_nil.mp hne
    rcases hrel hse hne2 with hp0 | ⟨⟨c, cs, hp0, hcc⟩, hnone⟩
    · left
      have h2 : rstripSlash r.path ++ t = [] := hdec.symm.trans hp0
      exact (List.append_eq_nil.mp h2).1
    · rcases head_of_append hdec hp0 with hq0 | ⟨ps, hq0⟩
      · exact Or.inl hq0
      · right
        exact ⟨⟨c, ps, hq0, hcc⟩, schemeSplit_none_mono hnone hdec⟩
  have htake : pyLower r.netloc = [] →
      (rstripSlash r.path).take 2 ≠ ['/', '/'] := by
    intro hne hc
    exact hnn ⟨pyLower_eq_nil.mp hne, hc⟩
  obtain ⟨p2, hsplit, hre, hp2or⟩ := urlsplit_rebuild r.scheme
    (pyLower r.netloc) (rstripSlash r.path) hshape hlow hn_nosep hn_bal
    hn_safe hp_noq hp_nof hp_safe hnp hrel2 htake
  have hsp2 : splitparams p2 = (p2, []) := by
    rcases hp2or with h | ⟨h, hne⟩
    · rw [h]
      exact hsp
    · rw [h]
      exact splitparams_cons_slash hsp
  have hrs2 : rstripSlash p2 = p2 := by
    rcases hp2or with h | ⟨h, hne⟩
    · rw [h]
      exact rstripSlash_idem r.path
    · rw [h]
      exact rstripSlash_cons_fixed '/' hne (rstripSlash_idem r.path)
  have hparse2 : urlparse (urlunsplit
      ⟨r.scheme, pyLower r.netloc, rstripSlash r.path, [], []⟩) =
      Except.ok ⟨r.scheme, pyLower r.netloc, p2, [], [], []⟩ := by
    rw [urlparse, hsplit, except_ok_bind]
    dsimp only
    by_cases hc : r.scheme ∈ uses_params ∧ ';' ∈ p2
    · rw [if_pos hc]
      simp only [hsp2, except_pure_eq]
    · rw [if_neg hc]
      rfl
  have hv2 : normalize_url (urlunsplit
      ⟨r.scheme, pyLower r.netloc, rstripSlash r.path, [], []⟩) =
      Except.ok (urlunsplit ⟨r.scheme, pyLower r.netloc, p2, [], []⟩) := by
    rw [normalize_url, hparse2, except_ok_bind]
    dsimp only
    rw [hlow, pyLower_idem, hrs2]
    rfl
  refine ⟨_, hv1, ?_⟩
  rw [hv2, hre]

/-- C3 counterexample: `normalize_url` is not idempotent.  A re-encoded
query dictionary is `repr`-wrapped again on the second pass (first pair);
a `;` left in the last path segment after the trailing-slash strip is
re-split off as params by the second parse (second pair); and a path
beginning `//` under an empty authority is re-read as a netloc and
lower-cased (third pair). -/
theorem c3_counterexample :
    (normalize_url (pys "http://h/?a=1") =
        Except.ok (pys "http://h?a=%5B%271%27%5D") ∧
      ¬ normalize_url (pys "http://h?a=%5B%271%27%5D") =
        Except.ok (pys "http://h?a=%5B%271%27%5D")) ∧
    (normalize_url (pys "http://h/a;b/") = Except.ok (pys "http://h/a;b") ∧
      normalize_url (pys "http://h/a;b") = Except.ok (pys "http://h/a")) ∧
    (normalize_url (pys "////A") = Except.ok (pys "//A") ∧
      normalize_url (pys "//A") = Except.ok (pys "//a")) := by
  decide

/-- C3 witness: the amended idempotence theorem applied to the URL
`http://EXAMPLE.com/a/`, whose parse satisfies all four side conditions. -/
theorem c3_amended_witness :
    urlparse (pys "http://EXAMPLE.com/a/") = Except.ok
      ⟨pys "http", pys "EXAMPLE.com", pys "/a/", [], [], []⟩ ∧
    (∃ v, normalize_url (pys "http://EXAMPLE.com/a/") = Except.ok v ∧
      normalize_url v = Except.ok v) :=
  ⟨by decide,
   c3_amended_idempotent_when (pys "http://EXAMPLE.com/a/")
     ⟨pys "http", pys "EXAMPLE.com", pys "/a/", [], [], []⟩
     (by decide) (by decide) (by decide) (by decide)⟩

/-! ## Order-insensitivity of canonicalization (claim C4) -/

/-- C4 (amended).  Two URLs that parse successfully and differ only in the
order of their query parameters — same scheme and host up to ASCII case,
same path up to trailing slashes, and `parse_qs` parameter lists that are
permutations of one another (which forces distinct same-key parameters to
keep their relative order) — canonicalize to byte-equal strings. -/
theorem c4_amended_order_insensitive (u1 u2 : PyStr) (r1 r2 : ParseResult)
    (h1 : urlparse u1 = Except.ok r1) (h2 : urlparse u2 = Except.ok r2)
    (hs : pyLower r1.scheme = pyLower r2.scheme)
    (hn : pyLower r1.netloc = pyLower r2.netloc)
    (hp : rstripSlash r1.path = rstripSlash r2.path)
    (hq : (parse_qs r1.query).Perm (parse_qs r2.query)) :
    normalize_url u1 = normalize_url u2 := by
  simp only [normalize_url, h1, h2, except_ok_bind]
  rw [hs, hn, hp,
    pySorted_eq_of_perm qsItemLe qsItemLe_total qsItemLe_trans
      qsItemLe_antisymm _ _ hq]

/-- Witness for C4 (amended), at the claim's own instance:
`canonicalize("http://a/?b=1&a=2") == canonicalize("http://a/?a=2&b=1")`. -/
theorem c4_amended_witness :
    normalize_url (pys "http://a/?b=1&a=2") =
      normalize_url (pys "http://a/?a=2&b=1") :=
  c4_amended_order_insensitive _ _
    ⟨pys "http", pys "a", pys "/", [], pys "b=1&a=2", []⟩
    ⟨pys "http", pys "a", pys "/", [], pys "a=2&b=1", []⟩
    (by decide) (by decide) (by decide) (by decide) (by decide) (by decide)

/-- Counterexample to C4 as stated: `"http://h/?a=1&a=2"` and
`"http://h/?a=2&a=1"` differ only in the order of their (same-key) query
parameters, yet canonicalize differently — the two values of key `a` are
re-encoded in their original order. -/
theorem c4_counterexample :
    (parse_qsl (pys "a=1&a=2")).Perm (parse_qsl (pys "a=2&a=1")) ∧
    normalize_url (pys "http://h/?a=1&a=2") ≠
      normalize_url (pys "http://h/?a=2&a=1") := by
  decide

/-- Counterexample to C2 as stated: page 1 of query `"cat"` yields zero
new candidates, yet page 2 is still fetched and its candidate ends up in
the batch. -/
theorem c2_counterexample :
    let env := fun (_ : PyStr) (p : Nat) =>
      if p = 2 then ListingResponse.listing [⟨pys "cat", pys "http://x/", []⟩]
      else ListingResponse.listing []
    scrape_query (fun s => s) (pys "cat") (env (pys "cat") 1) (some []) =
      ([], some []) ∧
    (pys "cat", 2) ∈
      (collect_queries (fun s => s) env [pys "cat"] ([], [], [])).2.2 ∧
    harvestBatch (fun s => s) env [pys "cat"] =
      [⟨pys "cat", pys "cat", pys "http://x/", [], pys "http://x"⟩] := by
  decide
